import Mathlib

/-!
# grablibs: dependency report parsing, cross-container copy and closure resolution

A shallow embedding of `cmd/grablibs/grablibs-main.go`.

* Go strings are embedded as lists of Unicode characters (`Str`); the program only
  cuts strings at the ASCII separators `"\n"`, `" "` and `" => "`, so on well-formed
  UTF-8 text the byte-level and the character-level readings coincide.
* A Go `map[string]string` is an association list with unique keys (`GoMap`); the
  order in which `range` visits it is not fixed by Go and is a parameter of the
  embedding.
* The two containers are the environment: the source container answers `which`,
  `cat` and `ldd`; the destination container holds the library directory (`Dir`,
  a map from path to bytes) and answers `ldd` as a function of that directory.
* Of the commands run in the destination container only `tee` changes the library
  directory: it creates or overwrites the file at its path. `chmod`, `ldd` and the final
  trial run of the binary leave the directory's paths and contents as they are. Every
  way `copyFromTo` can fail after the read (pipe, start, write, close, wait) is the one
  answer `teeOk = false`.
* `log.Fatal` ends the run; it is embedded as an error result. The closure loop has no
  bound in the source; it is run for a given number of passes (`fuel`) and reports
  `running` when that number does not suffice.
-/

namespace Grablibs

/-- Text: a Go string read as a list of characters. -/
abbrev Str := List Char

/-- File content. -/
abbrev Bytes := List Nat

/-! ## Go library functions used by the program -/

namespace unicode

/-- Go `unicode.IsSpace`: the Latin-1 spaces and the characters with the Unicode
White_Space property. -/
def IsSpace (c : Char) : Bool :=
  let n := c.toNat
  n == 9 || n == 10 || n == 11 || n == 12 || n == 13 || n == 32 || n == 133 || n == 160 ||
  n == 5760 || (8192 ≤ n && n ≤ 8202) || n == 8232 || n == 8233 || n == 8239 ||
  n == 8287 || n == 12288

end unicode

namespace strings

/-- Go `strings.Index(s, substr)`: the position of the first occurrence of `substr`
in `s`; `none` stands for Go's `-1`. -/
def Index : Str → Str → Option Nat
  | [], substr => if substr = [] then some 0 else none
  | c :: cs, substr =>
    if substr.isPrefixOf (c :: cs) then some 0
    else (Index cs substr).map (· + 1)

/-- Go `strings.Split(s, sep)` for a separator of one character (the program splits
at `"\n"` and at `" "`): the pieces of `s` between the separators; the result always
has at least one piece. -/
def Split : Str → Char → List Str
  | [], _ => [[]]
  | c :: cs, sep =>
    if c = sep then [] :: Split cs sep
    else
      match Split cs sep with
      | [] => [[c]]
      | piece :: pieces => (c :: piece) :: pieces

/-- Go `strings.TrimSpace(s)`: `s` without leading and trailing white space. -/
def TrimSpace (s : Str) : Str :=
  ((s.dropWhile unicode.IsSpace).reverse.dropWhile unicode.IsSpace).reverse

end strings

/-! ## Maps -/

/-- Assignment `m[k] = v` on a map kept as an association list with unique keys. -/
def mapSet {β : Type} : List (Str × β) → Str → β → List (Str × β)
  | [], k, v => [(k, v)]
  | (k', v') :: m, k, v => if k' = k then (k, v) :: m else (k', v') :: mapSet m k v

/-- Lookup `v, ok := m[k]`; `none` stands for `ok == false`. -/
def mapGet {β : Type} : List (Str × β) → Str → Option β
  | [], _ => none
  | (k', v') :: m, k => if k' = k then some v' else mapGet m k

/-- The keys of a map. -/
def mapKeys {β : Type} (m : List (Str × β)) : List Str := m.map Prod.fst

/-- A Go `map[string]string`. -/
abbrev GoMap := List (Str × Str)

/-- The destination's library directory: path to content. -/
abbrev Dir := List (Str × Bytes)

/-! ## `lddIt` -/

/-- The resolution separator `" => "`. -/
def arrow : Str := [' ', '=', '>', ' ']

/-- The value the closure loop tests for (`v == "not"`). -/
def notFound : Str := ['n', 'o', 't']

/-- The body of the loop of `lddIt` for one line `l`, on the map `rv` built so far. -/
def lddLine (rv : GoMap) (l : Str) : GoMap :=
  match strings.Index l arrow with
  | some split =>
    let values := strings.Split (l.drop (split + 4)) ' '
    if values.length > 0 then
      mapSet rv (strings.TrimSpace (l.take split)) (strings.TrimSpace (values.headD []))
    else rv
  | none => rv

/-- Go `lddIt(result)`. -/
def lddIt (result : Str) : GoMap :=
  (strings.Split result '\n').foldl lddLine []

namespace path

/-- Go `path.Base(path)`: the last element of the path, trailing slashes removed
first; `"."` for the empty path and `"/"` for a path of slashes only. -/
def Base (p : Str) : Str :=
  if p = [] then ['.']
  else
    let stripped := (p.reverse.dropWhile (· = '/')).reverse
    let last := (stripped.reverse.takeWhile (· ≠ '/')).reverse
    if last = [] then ['/'] else last

/-- One path element read by `path.Clean`, on the elements written so far (`out`, the
last written first): an empty element and `.` are skipped, `..` removes the last
written real element or, when there is none, is dropped on a rooted path and written
on a relative one, and any other element is written. -/
def cleanElem (rooted : Bool) (out : List Str) (e : Str) : List Str :=
  if e = [] ∨ e = ['.'] then out
  else if e = ['.', '.'] then
    match out with
    | top :: rest => if top = ['.', '.'] then e :: out else rest
    | [] => if rooted then [] else [e]
  else e :: out

/-- The elements joined with single slashes. -/
def joinElems : List Str → Str
  | [] => []
  | [e] => e
  | e :: es => e ++ '/' :: joinElems es

/-- Go `path.Clean(path)`: the shortest path equivalent to `path` by purely lexical
processing. -/
def Clean (p : Str) : Str :=
  let rooted := decide (p.head? = some '/')
  let out := (strings.Split p '/').foldl (cleanElem rooted) []
  let body := joinElems out.reverse
  let res := if rooted then '/' :: body else body
  if res = [] then ['.'] else res

/-- The loop of `path.Join` that writes the non-empty leading element and every
element after it, a slash between two elements. -/
def joinBuf (buf : Str) : List Str → Str
  | [] => buf
  | e :: es =>
    if buf ≠ [] ∨ e ≠ [] then joinBuf ((if buf ≠ [] then buf ++ ['/'] else buf) ++ e) es
    else joinBuf buf es

/-- Go `path.Join(elem...)`. -/
def Join (elem : List Str) : Str :=
  if (elem.map List.length).sum = 0 then [] else Clean (joinBuf [] elem)

end path

/-! ## The environment -/

/-- The ways the run ends in `log.Fatal`, by message. -/
inductive Fatal
  | cannotFindBinary
  | cannotMakeExecutable
  | cannotMakeLddRaw
  | cannotFindLibraryOnSource (k : Str)
  deriving DecidableEq, Repr

/-- What the two containers answer. A command that exits non-zero answers `none`. -/
structure World where
  /-- The output of `which name` in the source container. -/
  which : Str → Option Str
  /-- The output of `cat path` in the source container. -/
  cat : Str → Option Bytes
  /-- The output of `ldd path` in the source container. -/
  lddSource : Str → Option Str
  /-- The output of `LD_LIBRARY_PATH=dir ldd path` in the destination container, a
  function of the files in the library directory. -/
  lddDest : Dir → Str → Option Str
  /-- Whether `chmod a+x path` succeeds in the destination container. -/
  chmodOk : Dir → Str → Bool
  /-- Whether `tee path` fed with the bytes succeeds in the destination container. -/
  teeOk : Dir → Str → Bytes → Bool
  /-- The order in which `range` visits the map read in pass `pass` of job `job`. -/
  rangeOrder : Nat → Nat → GoMap → GoMap

/-- Go `runJobInContainer`: the output, white space trimmed. -/
def runJobInContainer (out : Option Str) : Option Str :=
  out.map strings.TrimSpace

/-- The directory the libraries are collected in (`dirName`). -/
def dirName : Str := "/tmp/magiclibs".toList

/-- Go `copyFromTo(c1, c2, p1, p2)` with `c1` the source and `c2` the destination
container: the new path and the destination directory after the write. -/
def copyFromTo (w : World) (fs : Dir) (p1 p2 : Str) : Option (Str × Dir) :=
  match w.cat p1 with
  | none => none
  | some data =>
    let destPath := path.Join [p2, path.Base p1]
    if w.teeOk fs destPath data then some (destPath, mapSet fs destPath data)
    else none

/-- One completed copy: source path and destination path. -/
abbrev TransplantRecord := Str × Str

/-- The `for k, v := range lddNew` loop of `main` over the entries still to visit:
the directory, the copies made so far and `dirty`. -/
def fixing (w : World) (lddOld : GoMap) :
    List (Str × Str) → Dir → List TransplantRecord → Bool →
      Except Fatal (Dir × List TransplantRecord × Bool)
  | [], fs, copies, dirty => .ok (fs, copies, dirty)
  | (k, v) :: rest, fs, copies, dirty =>
    if v = notFound then
      match mapGet lddOld k with
      | none => .error (.cannotFindLibraryOnSource k)
      | some oldLibPath =>
        match copyFromTo w fs oldLibPath dirName with
        | none => .error .cannotFindBinary
        | some (newLibPath, fs') =>
          fixing w lddOld rest fs' (copies ++ [(oldLibPath, newLibPath)]) true
    else fixing w lddOld rest fs copies dirty

/-- How the `for !done` loop stands after a number of passes. -/
inductive Outcome
  /-- The loop was left with `done == true`. -/
  | done (fs : Dir) (passes : List (List TransplantRecord))
  /-- The run ended in `log.Fatal`. -/
  | failed (e : Fatal) (passes : List (List TransplantRecord))
  /-- The loop is still running after the passes allowed. -/
  | running
  deriving DecidableEq, Repr

/-- The `for !done` loop of `main` for the binary at `newPath`, run for at most `fuel`
passes from pass number `pass`; `passes` lists the copies of each pass so far. -/
def closure (w : World) (job : Nat) (lddOld : GoMap) (newPath : Str) :
    Nat → Nat → Dir → List (List TransplantRecord) → Outcome
  | 0, _, _, _ => .running
  | fuel + 1, pass, fs, passes =>
    match runJobInContainer (w.lddDest fs newPath) with
    | none => .failed .cannotMakeLddRaw passes
    | some lddNewRaw =>
      let lddNew := lddIt lddNewRaw
      match fixing w lddOld (w.rangeOrder job pass lddNew) fs [] false with
      | .error e => .failed e passes
      | .ok (fs', copies, dirty) =>
        if !dirty then .done fs' (passes ++ [copies])
        else closure w job lddOld newPath fuel (pass + 1) fs' (passes ++ [copies])

/-- The body of `for _, binaryName := range binaries` for job number `job`: locate,
copy, mark executable, read the source's dependency map once, resolve the closure.
The final trial run of the binary is logged only. -/
def processBinary (w : World) (fuel : Nat) (job : Nat) (fs : Dir) (binaryName : Str) :
    Outcome :=
  match runJobInContainer (w.which binaryName) with
  | none => .failed .cannotFindBinary []
  | some binPath =>
    match copyFromTo w fs binPath dirName with
    | none => .failed .cannotFindBinary []
    | some (newPath, fs1) =>
      if w.chmodOk fs1 newPath then
        match runJobInContainer (w.lddSource binPath) with
        | none => .failed .cannotMakeLddRaw [[(binPath, newPath)]]
        | some lddRaw =>
          closure w job (lddIt lddRaw) newPath fuel 0 fs1 [[(binPath, newPath)]]
      else .failed .cannotMakeExecutable [[(binPath, newPath)]]

/-- The loop of `main` over the binaries, from job number `job` on, every closure loop
run for at most `fuel` passes. -/
def processAll (w : World) (fuel : Nat) : Nat → Dir → List Str → Outcome
  | _, fs, [] => .done fs []
  | job, fs, binaryName :: rest =>
    match processBinary w fuel job fs binaryName with
    | .done fs' passes =>
      match processAll w fuel (job + 1) fs' rest with
      | .done fs'' passes' => .done fs'' (passes ++ passes')
      | .failed e passes' => .failed e (passes ++ passes')
      | .running => .running
    | .failed e passes => .failed e passes
    | .running => .running

/-- The entries of the source's map whose file is not in the library directory `fs`:
the measure of the closure loop. -/
def missing (lddOld : GoMap) (fs : Dir) : List (Str × Str) :=
  lddOld.filter (fun e => decide (path.Join [dirName, path.Base e.2] ∉ mapKeys fs))

/-! ## Example environments -/

/-- A source that has `/usr/bin/tool`, which needs `libfoo.so` from `/usr/lib`, and a
destination whose loader finds `libfoo.so` once it is in the library directory. -/
def libfooWorld : World where
  which := fun name => if name = "tool".toList then some "/usr/bin/tool\n".toList else none
  cat := fun p =>
    if p = "/usr/bin/tool".toList then some [127, 69, 76, 70]
    else if p = "/usr/lib/libfoo.so".toList then some [1, 2]
    else none
  lddSource := fun p =>
    if p = "/usr/bin/tool".toList then
      some "\tlibfoo.so => /usr/lib/libfoo.so (0x1)\n".toList
    else none
  lddDest := fun fs _ =>
    if (mapGet fs "/tmp/magiclibs/libfoo.so".toList).isSome then
      some "\tlibfoo.so => /tmp/magiclibs/libfoo.so (0x1)\n".toList
    else some "\tlibfoo.so => not found\n".toList
  chmodOk := fun _ _ => true
  teeOk := fun _ _ _ => true
  rangeOrder := fun _ _ m => m

/-- As `libfooWorld`, with a destination whose loader does not accept the copied file:
its report lists `libfoo.so` as not found whatever the library directory holds. -/
def stuckWorld : World :=
  { libfooWorld with lddDest := fun _ _ => some "\tlibfoo.so => not found\n".toList }

/-- A source whose own report for `/usr/bin/tool` lists `libfoo.so` as not found, and a
destination that lists it as not found too; `notFile` is the content of a file named
`not` in the source's working directory, if there is one. -/
def sourceLacksWorld (notFile : Option Bytes) : World :=
  { libfooWorld with
    cat := fun p =>
      if p = "/usr/bin/tool".toList then some [127, 69, 76, 70]
      else if p = notFound then notFile
      else none
    lddSource := fun p =>
      if p = "/usr/bin/tool".toList then some "\tlibfoo.so => not found\n".toList else none
    lddDest := fun _ _ => some "\tlibfoo.so => not found\n".toList }

/-- A destination that lacks `liba.so` and `libb.so`, a source whose report has
`liba.so` only, and a write of `liba.so` into the library directory that fails. -/
def writeFailsWorld : World :=
  { libfooWorld with
    cat := fun p =>
      if p = "/usr/bin/tool".toList then some [127, 69, 76, 70]
      else if p = "/usr/lib/liba.so".toList then some [1, 2]
      else none
    lddSource := fun p =>
      if p = "/usr/bin/tool".toList then some "\tliba.so => /usr/lib/liba.so (0x1)\n".toList
      else none
    lddDest := fun _ _ => some "\tliba.so => not found\n\tlibb.so => not found\n".toList
    teeOk := fun _ p _ => decide (p ≠ "/tmp/magiclibs/liba.so".toList) }

/-- Two binaries `a` and `b` of the source that need `libz.so.1`, which the source
resolves to two different files; the destination's loader accepts for `a` only the first
file's bytes and for `b` only the second's. -/
def twoLibzWorld : World where
  which := fun name =>
    if name = "a".toList then some "/opt/a/bin/a\n".toList
    else if name = "b".toList then some "/usr/bin/b\n".toList
    else none
  cat := fun p =>
    if p = "/opt/a/bin/a".toList then some [1]
    else if p = "/usr/bin/b".toList then some [2]
    else if p = "/opt/a/lib/libz.so.1".toList then some [32]
    else if p = "/usr/lib/libz.so.1".toList then some [64]
    else none
  lddSource := fun p =>
    if p = "/opt/a/bin/a".toList then
      some "\tlibz.so.1 => /opt/a/lib/libz.so.1 (0x1)\n".toList
    else if p = "/usr/bin/b".toList then
      some "\tlibz.so.1 => /usr/lib/libz.so.1 (0x1)\n".toList
    else none
  lddDest := fun fs p =>
    if mapGet fs "/tmp/magiclibs/libz.so.1".toList
        = some (if p = "/tmp/magiclibs/a".toList then [32] else [64]) then
      some "\tlibz.so.1 => /tmp/magiclibs/libz.so.1 (0x1)\n".toList
    else some "\tlibz.so.1 => not found\n".toList
  chmodOk := fun _ _ => true
  teeOk := fun _ _ _ => true
  rangeOrder := fun _ _ m => m

/-! ## Definitions that follow the specification's words -/

/-- Blank in the sense of the specification's parsing rule: a space or a tab. -/
def isBlank (c : Char) : Bool := c = ' ' || c = '\t'

/-- Follows the specification's words, not the code: "the first whitespace-delimited
token" of a text, white space being spaces and tabs and runs of them; empty when the
text holds no token. -/
def firstField (s : Str) : Str :=
  (s.dropWhile isBlank).takeWhile (fun c => !isBlank c)

/-- A file name: a path element that is not empty, not `.` or `..`, and holds no slash. -/
def isName (e : Str) : Prop := e ≠ [] ∧ e ≠ ['.'] ∧ e ≠ ['.', '.'] ∧ '/' ∉ e

/-- The literal marker of an unresolved library in a dependency report. -/
def notFoundMarker : Str := "not found".toList

/-! ## Facts about maps -/

theorem mapGet_mapSet_same {β : Type} (m : List (Str × β)) (k : Str) (v : β) :
    mapGet (mapSet m k v) k = some v := by
  induction m with
  | nil => simp [mapSet, mapGet]
  | cons e m ih =>
    obtain ⟨k', v'⟩ := e
    by_cases h : k' = k
    · simp [mapSet, mapGet, h]
    · simp [mapSet, mapGet, h, ih]

theorem mapGet_mapSet_ne {β : Type} (m : List (Str × β)) (k k0 : Str) (v : β)
    (hne : k0 ≠ k) : mapGet (mapSet m k v) k0 = mapGet m k0 := by
  induction m with
  | nil => simp [mapSet, mapGet, Ne.symm hne]
  | cons e m ih =>
    obtain ⟨k', v'⟩ := e
    by_cases h : k' = k
    · subst h
      simp [mapSet, mapGet, Ne.symm hne]
    · by_cases h0 : k' = k0
      · subst h0
        simp [mapSet, mapGet, h]
      · simp [mapSet, mapGet, h, h0, ih]

theorem mem_mapKeys_mapSet {β : Type} (m : List (Str × β)) (k k0 : Str) (v : β) :
    k0 ∈ mapKeys (mapSet m k v) ↔ k0 = k ∨ k0 ∈ mapKeys m := by
  induction m with
  | nil => simp only [mapSet, mapKeys, List.map_cons, List.map_nil, List.mem_singleton,
      List.not_mem_nil, or_false]
  | cons e m ih =>
    obtain ⟨k', v'⟩ := e
    by_cases h : k' = k
    · subst h
      simp only [mapSet, if_true, mapKeys, List.map_cons, List.mem_cons]
      tauto
    · have ih' : k0 ∈ List.map Prod.fst (mapSet m k v)
          ↔ k0 = k ∨ k0 ∈ List.map Prod.fst m := ih
      simp only [mapSet, h, if_false, mapKeys, List.map_cons, List.mem_cons, ih']
      tauto

theorem mapGet_isSome_iff {β : Type} (m : List (Str × β)) (k : Str) :
    (mapGet m k).isSome ↔ k ∈ mapKeys m := by
  induction m with
  | nil => simp only [mapGet, mapKeys, List.map_nil, List.not_mem_nil, Option.isSome_none,
      Bool.false_eq_true]
  | cons e m ih =>
    obtain ⟨k', v'⟩ := e
    have ih' : (mapGet m k).isSome = true ↔ k ∈ List.map Prod.fst m := ih
    by_cases h : k' = k
    · subst h
      simp only [mapGet, if_true, mapKeys, List.map_cons, List.mem_cons, Option.isSome_some,
        true_or]
    · simp only [mapGet, h, if_false, mapKeys, List.map_cons, List.mem_cons, ih']
      constructor
      · intro hm; exact Or.inr hm
      · rintro (hk | hm)
        · exact absurd hk.symm h
        · exact hm

theorem mapGet_eq_none_iff {β : Type} (m : List (Str × β)) (k : Str) :
    mapGet m k = none ↔ k ∉ mapKeys m := by
  rw [← mapGet_isSome_iff]
  cases mapGet m k <;> simp

theorem mem_of_mapGet {β : Type} (m : List (Str × β)) (k : Str) (v : β)
    (h : mapGet m k = some v) : (k, v) ∈ m := by
  induction m with
  | nil => simp [mapGet] at h
  | cons e m ih =>
    obtain ⟨k', v'⟩ := e
    by_cases hk : k' = k
    · simp [mapGet, hk] at h
      simp [hk, h]
    · simp [mapGet, hk] at h
      exact List.mem_cons_of_mem _ (ih h)

theorem mapGet_of_mem {β : Type} (m : List (Str × β)) (hnd : (mapKeys m).Nodup)
    (k : Str) (v : β) (h : (k, v) ∈ m) : mapGet m k = some v := by
  induction m with
  | nil => simp at h
  | cons e m ih =>
    obtain ⟨k', v'⟩ := e
    simp only [mapKeys, List.map_cons, List.nodup_cons] at hnd
    rcases List.mem_cons.mp h with heq | hm
    · cases heq
      simp [mapGet]
    · have hk : k' ≠ k := by
        intro hk
        apply hnd.1
        rw [hk]
        exact List.mem_map_of_mem Prod.fst hm
      simp only [mapGet, hk, if_false]
      exact ih hnd.2 hm

theorem nodup_mapKeys_mapSet {β : Type} (m : List (Str × β)) (k : Str) (v : β)
    (hnd : (mapKeys m).Nodup) : (mapKeys (mapSet m k v)).Nodup := by
  induction m with
  | nil => simp [mapSet, mapKeys]
  | cons e m ih =>
    obtain ⟨k', v'⟩ := e
    simp only [mapKeys, List.map_cons, List.nodup_cons] at hnd
    by_cases h : k' = k
    · subst h
      simp only [mapSet, if_true, mapKeys, List.map_cons, List.nodup_cons]
      exact hnd
    · simp only [mapSet, h, if_false, mapKeys, List.map_cons, List.nodup_cons]
      refine ⟨?_, ih hnd.2⟩
      intro hmem
      rcases (mem_mapKeys_mapSet m k k' v).mp hmem with hk | hk
      · exact h hk
      · exact hnd.1 hk

/-! ## Facts about the library functions -/

theorem Split_ne_nil (s : Str) (sep : Char) : strings.Split s sep ≠ [] := by
  induction s with
  | nil => simp [strings.Split]
  | cons c cs ih =>
    unfold strings.Split
    by_cases h : c = sep
    · simp [h]
    · simp only [h, if_false]
      split <;> simp

theorem Split_headD (s : Str) (sep : Char) :
    (strings.Split s sep).headD [] = s.takeWhile (fun c => decide (c ≠ sep)) := by
  induction s with
  | nil => simp [strings.Split]
  | cons c cs ih =>
    unfold strings.Split
    by_cases h : c = sep
    · simp [h]
    · simp only [h, if_false]
      split
      · next hnil => exact absurd hnil (Split_ne_nil cs sep)
      · next piece pieces hsplit =>
        rw [hsplit] at ih
        simp only [List.headD_cons] at ih
        simp [List.takeWhile_cons, h, ih]

theorem Index_cons (c : Char) (cs sub : Str) :
    strings.Index (c :: cs) sub =
      if sub.isPrefixOf (c :: cs) then some 0 else (strings.Index cs sub).map (· + 1) := by
  rw [strings.Index]

theorem Index_isSome_iff (s sub : Str) : (strings.Index s sub).isSome ↔ sub <:+: s := by
  induction s with
  | nil =>
    unfold strings.Index
    by_cases h : sub = []
    · simp [h]
    · simp [h]
  | cons c cs ih =>
    rw [Index_cons]
    cases hp : sub.isPrefixOf (c :: cs) with
    | true =>
      simp only [if_true, Option.isSome_some, true_iff]
      exact (List.isPrefixOf_iff_prefix.mp hp).isInfix
    | false =>
      simp only [Bool.false_eq_true, if_false, Option.isSome_map']
      rw [ih, List.infix_cons_iff]
      constructor
      · intro hi; exact Or.inr hi
      · rintro (hpre | hi)
        · rw [List.isPrefixOf_iff_prefix.mpr hpre] at hp
          cases hp
        · exact hi

theorem Index_eq_none_iff (s sub : Str) : strings.Index s sub = none ↔ ¬ sub <:+: s := by
  rw [← Index_isSome_iff]
  cases strings.Index s sub <;> simp

/-- The position `strings.Index` returns is one where the substring stands. -/
theorem Index_spec (s sub : Str) (i : Nat) (h : strings.Index s sub = some i) :
    s = s.take i ++ sub ++ s.drop (i + sub.length) := by
  induction s generalizing i with
  | nil =>
    unfold strings.Index at h
    by_cases hs : sub = []
    · simp [hs]
    · simp [hs] at h
  | cons c cs ih =>
    rw [Index_cons] at h
    cases hp : sub.isPrefixOf (c :: cs) with
    | true =>
      rw [hp] at h
      simp only [if_true, Option.some.injEq] at h
      subst h
      obtain ⟨t, ht⟩ := List.isPrefixOf_iff_prefix.mp hp
      simp only [List.take_zero, List.nil_append, Nat.zero_add]
      rw [← ht]
      simp
    | false =>
      rw [hp] at h
      simp only [Bool.false_eq_true, if_false] at h
      cases hj : strings.Index cs sub with
      | none => rw [hj] at h; cases h
      | some j =>
        rw [hj] at h
        simp only [Option.map_some', Option.some.injEq] at h
        subst h
        have := ih j hj
        simp only [List.take_succ_cons, List.cons_append]
        rw [show j + 1 + sub.length = (j + sub.length) + 1 by omega, List.drop_succ_cons]
        exact congrArg (c :: ·) this

/-- The position `strings.Index` returns is the first one where the substring stands. -/
theorem Index_first (s sub : Str) (i : Nat) (h : strings.Index s sub = some i) :
    ∀ j, j < i → ¬ sub <+: s.drop j := by
  induction s generalizing i with
  | nil =>
    unfold strings.Index at h
    by_cases hs : sub = []
    · simp only [hs, if_true, Option.some.injEq] at h
      intro j hj
      omega
    · simp [hs] at h
  | cons c cs ih =>
    rw [Index_cons] at h
    cases hp : sub.isPrefixOf (c :: cs) with
    | true =>
      rw [hp] at h
      simp only [if_true, Option.some.injEq] at h
      intro j hj
      omega
    | false =>
      rw [hp] at h
      simp only [Bool.false_eq_true, if_false] at h
      cases hj : strings.Index cs sub with
      | none => rw [hj] at h; cases h
      | some i0 =>
        rw [hj] at h
        simp only [Option.map_some', Option.some.injEq] at h
        subst h
        intro j hjlt
        cases j with
        | zero =>
          intro hpre
          rw [List.drop_zero, ← List.isPrefixOf_iff_prefix, hp] at hpre
          cases hpre
        | succ j =>
          rw [List.drop_succ_cons]
          exact ih i0 hj j (by omega)

/-- Among the elements of a list that satisfy `P` there is a last one. -/
theorem exists_last_of_exists {α : Type} (P : α → Prop) (ls : List α)
    (h : ∃ l ∈ ls, P l) :
    ∃ pre l post, ls = pre ++ l :: post ∧ P l ∧ ∀ l' ∈ post, ¬ P l' := by
  induction ls with
  | nil =>
    obtain ⟨l, hl, -⟩ := h
    cases hl
  | cons a ls ih =>
    by_cases hrest : ∃ l ∈ ls, P l
    · obtain ⟨pre, l, post, hls, hP, hpost⟩ := ih hrest
      exact ⟨a :: pre, l, post, by rw [hls]; rfl, hP, hpost⟩
    · obtain ⟨l, hl, hP⟩ := h
      rcases List.mem_cons.mp hl with heq | hmem
      · subst heq
        exact ⟨[], l, ls, rfl, hP, fun l' hl' hP' => hrest ⟨l', hl', hP'⟩⟩
      · exact absurd ⟨l, hmem, hP⟩ hrest

/-! ## Facts about `lddIt` -/

/-- The entry a line with the separator at `i` writes: the trimmed left side, and the
trimmed text of the right side up to its first space. -/
theorem lddLine_some (rv : GoMap) (l : Str) (i : Nat) (h : strings.Index l arrow = some i) :
    lddLine rv l = mapSet rv (strings.TrimSpace (l.take i))
      (strings.TrimSpace ((l.drop (i + 4)).takeWhile (fun c => decide (c ≠ ' ')))) := by
  unfold lddLine
  simp only [h]
  have hpos : (strings.Split (l.drop (i + 4)) ' ').length > 0 :=
    List.length_pos.mpr (Split_ne_nil _ _)
  simp only [hpos, if_true, Split_headD]

theorem lddLine_none (rv : GoMap) (l : Str) (h : strings.Index l arrow = none) :
    lddLine rv l = rv := by
  unfold lddLine
  simp only [h]

theorem mapGet_foldl_lddLine_of_not_later (post : List Str) (m : GoMap) (k : Str)
    (h : ∀ l ∈ post, ∀ j, strings.Index l arrow = some j →
      strings.TrimSpace (l.take j) ≠ k) :
    mapGet (post.foldl lddLine m) k = mapGet m k := by
  induction post generalizing m with
  | nil => rfl
  | cons l post ih =>
    simp only [List.foldl_cons]
    rw [ih _ (fun l' hl' => h l' (List.mem_cons_of_mem _ hl'))]
    cases hi : strings.Index l arrow with
    | none => rw [lddLine_none _ _ hi]
    | some j =>
      rw [lddLine_some _ _ _ hi]
      exact mapGet_mapSet_ne _ _ _ _ (Ne.symm (h l (List.mem_cons_self _ _) j hi))

theorem mem_mapKeys_foldl_lddLine (ls : List Str) (m : GoMap) (k : Str) :
    k ∈ mapKeys (ls.foldl lddLine m) ↔
      k ∈ mapKeys m ∨
        ∃ l ∈ ls, ∃ i, strings.Index l arrow = some i ∧ k = strings.TrimSpace (l.take i) := by
  induction ls generalizing m with
  | nil => simp
  | cons l ls ih =>
    simp only [List.foldl_cons]
    rw [ih]
    cases hi : strings.Index l arrow with
    | none =>
      rw [lddLine_none _ _ hi]
      constructor
      · rintro (hm | ⟨l', hl', j, hj, hk⟩)
        · exact Or.inl hm
        · exact Or.inr ⟨l', List.mem_cons_of_mem _ hl', j, hj, hk⟩
      · rintro (hm | ⟨l', hl', j, hj, hk⟩)
        · exact Or.inl hm
        · rcases List.mem_cons.mp hl' with heq | hl''
          · subst heq
            rw [hi] at hj
            cases hj
          · exact Or.inr ⟨l', hl'', j, hj, hk⟩
    | some i =>
      rw [lddLine_some _ _ _ hi, mem_mapKeys_mapSet]
      constructor
      · rintro ((hk | hm) | ⟨l', hl', j, hj, hk⟩)
        · exact Or.inr ⟨l, List.mem_cons_self _ _, i, hi, hk⟩
        · exact Or.inl hm
        · exact Or.inr ⟨l', List.mem_cons_of_mem _ hl', j, hj, hk⟩
      · rintro (hm | ⟨l', hl', j, hj, hk⟩)
        · exact Or.inl (Or.inr hm)
        · rcases List.mem_cons.mp hl' with heq | hl''
          · subst heq
            rw [hi] at hj
            cases hj
            exact Or.inl (Or.inl hk)
          · exact Or.inr ⟨l', hl'', j, hj, hk⟩

theorem nodup_mapKeys_foldl_lddLine (ls : List Str) (m : GoMap) (h : (mapKeys m).Nodup) :
    (mapKeys (ls.foldl lddLine m)).Nodup := by
  induction ls generalizing m with
  | nil => exact h
  | cons l ls ih =>
    simp only [List.foldl_cons]
    apply ih
    cases hi : strings.Index l arrow with
    | none => rw [lddLine_none _ _ hi]; exact h
    | some i => rw [lddLine_some _ _ _ hi]; exact nodup_mapKeys_mapSet _ _ _ h

theorem nodup_mapKeys_lddIt (result : Str) : (mapKeys (lddIt result)).Nodup :=
  nodup_mapKeys_foldl_lddLine _ [] (by simp [mapKeys])

/-- The entry `lddIt` keeps for a line: what the last line with that soname wrote. -/
theorem mapGet_lddIt (R : Str) (pre post : List Str) (l : Str) (i : Nat)
    (hlines : strings.Split R '\n' = pre ++ l :: post)
    (hi : strings.Index l arrow = some i)
    (hlast : ∀ l' ∈ post, ∀ j, strings.Index l' arrow = some j →
      strings.TrimSpace (l'.take j) ≠ strings.TrimSpace (l.take i)) :
    mapGet (lddIt R) (strings.TrimSpace (l.take i)) =
      some (strings.TrimSpace ((l.drop (i + 4)).takeWhile (fun c => decide (c ≠ ' ')))) := by
  unfold lddIt
  rw [hlines, List.foldl_append, List.foldl_cons,
    mapGet_foldl_lddLine_of_not_later post _ _ hlast, lddLine_some _ _ _ hi,
    mapGet_mapSet_same]

theorem dropWhile_eq_self_of_all_false {α : Type} (p : α → Bool) (s : List α)
    (h : ∀ c ∈ s, p c = false) : s.dropWhile p = s := by
  cases s with
  | nil => rfl
  | cons c cs => simp [List.dropWhile_cons, h c (List.mem_cons_self _ _)]

/-- Trimming leaves a text without white space as it is. -/
theorem TrimSpace_eq_self (s : Str) (h : ∀ c ∈ s, unicode.IsSpace c = false) :
    strings.TrimSpace s = s := by
  unfold strings.TrimSpace
  rw [dropWhile_eq_self_of_all_false _ s h,
    dropWhile_eq_self_of_all_false _ s.reverse (fun c hc => h c (List.mem_reverse.mp hc)),
    List.reverse_reverse]

theorem takeWhile_congr_of_stronger {α : Type} (p q : α → Bool) (s : List α)
    (hpq : ∀ c, p c = true → q c = true)
    (h : ∀ c ∈ s.takeWhile q, p c = true) : s.takeWhile p = s.takeWhile q := by
  induction s with
  | nil => rfl
  | cons c cs ih =>
    cases hq : q c with
    | false =>
      have hp : p c = false := by
        cases hp : p c with
        | false => rfl
        | true => rw [hpq c hp] at hq; cases hq
      simp [List.takeWhile_cons, hq, hp]
    | true =>
      have hmem : c ∈ (c :: cs).takeWhile q := by simp [List.takeWhile_cons, hq]
      have hp := h c hmem
      simp only [List.takeWhile_cons, hq, hp, if_true]
      congr 1
      apply ih
      intro d hd
      apply h d
      simp [List.takeWhile_cons, hq, hd]

/-- Where the text up to the first space holds no white space and the text does not
start with a space, that text is the first token delimited by spaces and tabs. -/
theorem firstField_eq_takeWhile (s : Str) (hhead : s.head? ≠ some ' ')
    (hclean : ∀ c ∈ s.takeWhile (fun c => decide (c ≠ ' ')), unicode.IsSpace c = false) :
    firstField s = s.takeWhile (fun c => decide (c ≠ ' ')) := by
  have hblank : ∀ c, unicode.IsSpace c = false → isBlank c = false := by
    intro c hc
    unfold isBlank
    cases hb : (decide (c = ' ') || decide (c = '\t')) with
    | false => rfl
    | true =>
      simp only [Bool.or_eq_true, decide_eq_true_eq] at hb
      rcases hb with hb | hb <;> subst hb <;> revert hc <;> decide
  have hdrop : s.dropWhile isBlank = s := by
    cases s with
    | nil => rfl
    | cons c cs =>
      have hc : c ≠ ' ' := by
        intro hc
        apply hhead
        simp [hc]
      have hmem : c ∈ (c :: cs).takeWhile (fun c => decide (c ≠ ' ')) := by
        simp [List.takeWhile_cons, hc]
      simp [List.dropWhile_cons, hblank c (hclean c hmem)]
  unfold firstField
  rw [hdrop]
  apply takeWhile_congr_of_stronger
  · intro c hc
    simp only [isBlank, Bool.not_eq_true', Bool.or_eq_false_iff, decide_eq_false_iff_not] at hc
    simp [hc.1]
  · intro c hc
    simp [hblank c (hclean c hc)]

/-! ## Claims about `lddIt` -/

/-- Claim C1, amended: the resolution `lddIt` stores for a soname `k` is the unresolved
value `"not"` exactly when, on the last line of the report with soname `k`, the text
after the separator, cut at its first space and trimmed, is `"not"`; a raw resolution
that is the literal `"not found"` marker is therefore stored as unresolved. -/
theorem lddIt_unresolved_iff_first_segment_not (R : Str) :
    (∀ k, mapGet (lddIt R) k = some notFound ↔
      ∃ pre l post i, strings.Split R '\n' = pre ++ l :: post ∧
        strings.Index l arrow = some i ∧ strings.TrimSpace (l.take i) = k ∧
        (∀ l' ∈ post, ∀ j, strings.Index l' arrow = some j →
          strings.TrimSpace (l'.take j) ≠ k) ∧
        strings.TrimSpace ((l.drop (i + 4)).takeWhile (fun c => decide (c ≠ ' ')))
          = notFound) ∧
    (∀ pre l post i, strings.Split R '\n' = pre ++ l :: post →
      strings.Index l arrow = some i →
      (∀ l' ∈ post, ∀ j, strings.Index l' arrow = some j →
        strings.TrimSpace (l'.take j) ≠ strings.TrimSpace (l.take i)) →
      l.drop (i + 4) = notFoundMarker →
      mapGet (lddIt R) (strings.TrimSpace (l.take i)) = some notFound) := by
  refine ⟨?_, ?_⟩
  · intro k
    constructor
    · intro hget
      have hkey : k ∈ mapKeys (lddIt R) := by
        rw [← mapGet_isSome_iff, hget]
        rfl
      unfold lddIt at hkey
      rw [mem_mapKeys_foldl_lddLine] at hkey
      have hex : ∃ l ∈ strings.Split R '\n',
          ∃ i, strings.Index l arrow = some i ∧ strings.TrimSpace (l.take i) = k := by
        rcases hkey with hnil | ⟨l, hl, i, hi, hk⟩
        · simp [mapKeys] at hnil
        · exact ⟨l, hl, i, hi, hk.symm⟩
      obtain ⟨pre, l, post, hlines, ⟨i, hi, hk⟩, hpost⟩ := exists_last_of_exists _ _ hex
      have hlast : ∀ l' ∈ post, ∀ j, strings.Index l' arrow = some j →
          strings.TrimSpace (l'.take j) ≠ k :=
        fun l' hl' j hj hkj => hpost l' hl' ⟨j, hj, hkj⟩
      have hrec := mapGet_lddIt R pre post l i hlines hi (by rw [hk]; exact hlast)
      rw [hk, hget] at hrec
      exact ⟨pre, l, post, i, hlines, hi, hk, hlast, (Option.some.inj hrec).symm⟩
    · rintro ⟨pre, l, post, i, hlines, hi, hk, hlast, hseg⟩
      have hrec := mapGet_lddIt R pre post l i hlines hi (by rw [hk]; exact hlast)
      rw [hk, hseg] at hrec
      exact hrec
  · intro pre l post i hlines hi hlast hraw
    rw [mapGet_lddIt R pre post l i hlines hi hlast, hraw]
    decide

/-- Instance of `lddIt_unresolved_iff_first_segment_not`: the report
`"libc.so.6 => /lib/libc.so.6 (0x1)\nlibfoo.so => not found"`, whose second line has the
`"not found"` marker, stores the unresolved value for `libfoo.so`. -/
theorem lddIt_unresolved_iff_first_segment_not_witness :
    mapGet (lddIt "libc.so.6 => /lib/libc.so.6 (0x1)\nlibfoo.so => not found".toList)
      (strings.TrimSpace ("libfoo.so => not found".toList.take 9)) = some notFound :=
  (lddIt_unresolved_iff_first_segment_not
    "libc.so.6 => /lib/libc.so.6 (0x1)\nlibfoo.so => not found".toList).2
    ["libc.so.6 => /lib/libc.so.6 (0x1)".toList] "libfoo.so => not found".toList [] 9
    (by decide) (by decide) (by simp) (by decide)

/-- Claim C1 as stated fails: in the report `"libfoo.so => not here"` the text after the
separator is `"not here"`, not the `"not found"` marker, and `lddIt` stores the
unresolved value for `libfoo.so` all the same. -/
theorem lddIt_unresolved_without_not_found_marker :
    strings.Index "libfoo.so => not here".toList arrow = some 9 ∧
    "libfoo.so => not here".toList.drop (9 + 4) = "not here".toList ∧
    ¬ (mapGet (lddIt "libfoo.so => not here".toList) "libfoo.so".toList = some notFound ↔
        "libfoo.so => not here".toList.drop (9 + 4) = notFoundMarker) := by
  decide

/-- Claim C2, amended: for the last line of a report with a given soname, the line is its
left side, the first separator on it and its right side, and `lddIt` records under the
trimmed left side the text of the right side up to its first space character, trimmed; this is the first token delimited by spaces and tabs whenever
the right side does not start with a space and that text holds no white space; and the
report of the scenario parses to exactly the one entry for `libc.so.6`. -/
theorem lddIt_records_soname_and_first_segment (R : Str) (pre post : List Str) (l : Str)
    (i : Nat)
    (hlines : strings.Split R '\n' = pre ++ l :: post)
    (hi : strings.Index l arrow = some i)
    (hlast : ∀ l' ∈ post, ∀ j, strings.Index l' arrow = some j →
      strings.TrimSpace (l'.take j) ≠ strings.TrimSpace (l.take i)) :
    l = l.take i ++ arrow ++ l.drop (i + 4) ∧
    (∀ j, j < i → ¬ arrow <+: l.drop j) ∧
    mapGet (lddIt R) (strings.TrimSpace (l.take i)) =
      some (strings.TrimSpace ((l.drop (i + 4)).takeWhile (fun c => decide (c ≠ ' ')))) ∧
    ((l.drop (i + 4)).head? ≠ some ' ' →
      (∀ c ∈ (l.drop (i + 4)).takeWhile (fun c => decide (c ≠ ' ')),
        unicode.IsSpace c = false) →
      mapGet (lddIt R) (strings.TrimSpace (l.take i)) = some (firstField (l.drop (i + 4)))) ∧
    lddIt "libc.so.6 => /lib/libc.so.6 (0x00007f...)\n\tlinux-vdso.so.1".toList
      = [("libc.so.6".toList, "/lib/libc.so.6".toList)] := by
  have hget := mapGet_lddIt R pre post l i hlines hi hlast
  refine ⟨Index_spec l arrow i hi, Index_first l arrow i hi, hget, ?_, by decide⟩
  intro hhead hclean
  rw [hget, TrimSpace_eq_self _ hclean, firstField_eq_takeWhile _ hhead hclean]

/-- Instance of `lddIt_records_soname_and_first_segment`: the first line of
`"libc.so.6 => /lib/libc.so.6 (0x1)\nlibfoo.so => not found"`. -/
theorem lddIt_records_soname_and_first_segment_witness :
    mapGet (lddIt "libc.so.6 => /lib/libc.so.6 (0x1)\nlibfoo.so => not found".toList)
      "libc.so.6".toList = some "/lib/libc.so.6".toList ∧
    firstField "/lib/libc.so.6 (0x1)".toList = "/lib/libc.so.6".toList := by
  have h := lddIt_records_soname_and_first_segment
    "libc.so.6 => /lib/libc.so.6 (0x1)\nlibfoo.so => not found".toList
    [] ["libfoo.so => not found".toList] "libc.so.6 => /lib/libc.so.6 (0x1)".toList 9
    (by decide) (by decide) (by decide)
  exact ⟨h.2.2.1, by decide⟩

/-- Claim C2 as stated fails: in the line `"linux-vdso.so.1 =>  (0x00007ffc)"` (two
spaces after the arrow, as `ldd` prints it) the first token of the right side delimited
by spaces and tabs is `(0x00007ffc)`, and `lddIt` records the empty text. -/
theorem lddIt_resolution_is_not_first_field :
    strings.Index "linux-vdso.so.1 =>  (0x00007ffc)".toList arrow = some 15 ∧
    firstField ("linux-vdso.so.1 =>  (0x00007ffc)".toList.drop (15 + 4))
      = "(0x00007ffc)".toList ∧
    mapGet (lddIt "linux-vdso.so.1 =>  (0x00007ffc)".toList) "linux-vdso.so.1".toList
      = some [] ∧
    mapGet (lddIt "linux-vdso.so.1 =>  (0x00007ffc)".toList) "linux-vdso.so.1".toList
      ≠ some (firstField ("linux-vdso.so.1 =>  (0x00007ffc)".toList.drop (15 + 4))) := by
  decide

/-- Claim C3: the keys of `lddIt R` are exactly the trimmed left sides of the lines of
`R` that contain the separator `" => "`; every such line has a split position, is its
left side, the separator and its right side, and contributes its soname; a line without
the separator has no split position and contributes nothing. -/
theorem lddIt_keys_iff_separator_lines (R : Str) :
    (∀ k, k ∈ mapKeys (lddIt R) ↔
      ∃ l ∈ strings.Split R '\n', arrow <:+: l ∧
        ∃ i, strings.Index l arrow = some i ∧ k = strings.TrimSpace (l.take i)) ∧
    (∀ l ∈ strings.Split R '\n', arrow <:+: l →
      ∃ i, strings.Index l arrow = some i ∧ l = l.take i ++ arrow ++ l.drop (i + 4) ∧
        strings.TrimSpace (l.take i) ∈ mapKeys (lddIt R)) ∧
    (∀ l, ¬ arrow <:+: l → strings.Index l arrow = none ∧ ∀ rv, lddLine rv l = rv) := by
  have hkeys : ∀ k, k ∈ mapKeys (lddIt R) ↔
      ∃ l ∈ strings.Split R '\n',
        ∃ i, strings.Index l arrow = some i ∧ k = strings.TrimSpace (l.take i) := by
    intro k
    unfold lddIt
    rw [mem_mapKeys_foldl_lddLine]
    simp [mapKeys]
  refine ⟨?_, ?_, ?_⟩
  · intro k
    rw [hkeys]
    constructor
    · rintro ⟨l, hl, i, hi, hk⟩
      refine ⟨l, hl, ?_, i, hi, hk⟩
      rw [← Index_isSome_iff, hi]
      rfl
    · rintro ⟨l, hl, -, i, hi, hk⟩
      exact ⟨l, hl, i, hi, hk⟩
  · intro l hl hinf
    have hsome := (Index_isSome_iff l arrow).mpr hinf
    obtain ⟨i, hi⟩ := Option.isSome_iff_exists.mp hsome
    exact ⟨i, hi, Index_spec l arrow i hi, (hkeys _).mpr ⟨l, hl, i, hi, rfl⟩⟩
  · intro l hinf
    have hnone := (Index_eq_none_iff l arrow).mpr hinf
    exact ⟨hnone, fun rv => lddLine_none rv l hnone⟩

/-! ## Facts about `copyFromTo` and the closure loop -/

theorem copyFromTo_eq_some (w : World) (fs fs' : Dir) (p1 p2 dp : Str)
    (h : copyFromTo w fs p1 p2 = some (dp, fs')) :
    dp = path.Join [p2, path.Base p1] ∧
      ∃ data, w.cat p1 = some data ∧ w.teeOk fs dp data = true ∧ fs' = mapSet fs dp data := by
  unfold copyFromTo at h
  cases hcat : w.cat p1 with
  | none => rw [hcat] at h; cases h
  | some data =>
    rw [hcat] at h
    simp only at h
    cases htee : w.teeOk fs (path.Join [p2, path.Base p1]) data with
    | false => rw [htee] at h; simp at h
    | true =>
      rw [htee] at h
      simp only [if_true, Option.some.injEq, Prod.mk.injEq] at h
      obtain ⟨h1, h2⟩ := h
      subst h1
      exact ⟨rfl, data, rfl, htee, h2.symm⟩

/-- What one pass over the entries `ord` has done when it ends without `log.Fatal`:
one copy per unresolved entry, in the order visited, of the path the source's map
gives; no file removed; no path touched but the destinations of the copies. -/
theorem fixing_ok (w : World) (lddOld : GoMap) (ord : List (Str × Str)) (fs fs' : Dir)
    (copies copies' : List TransplantRecord) (dirty dirty' : Bool)
    (h : fixing w lddOld ord fs copies dirty = .ok (fs', copies', dirty')) :
    ∃ new, copies' = copies ++ new ∧
      List.Forall₂
        (fun e c => mapGet lddOld e.1 = some c.1 ∧ c.2 = path.Join [dirName, path.Base c.1])
        (ord.filter (fun e => decide (e.2 = notFound))) new ∧
      dirty' = (dirty || !new.isEmpty) ∧
      (∀ q, q ∈ mapKeys fs → q ∈ mapKeys fs') ∧
      (∀ q, q ∉ new.map Prod.snd → mapGet fs' q = mapGet fs q) ∧
      (∀ c ∈ new, c.2 ∈ mapKeys fs') := by
  induction ord generalizing fs copies dirty with
  | nil =>
    simp only [fixing, Except.ok.injEq, Prod.mk.injEq] at h
    obtain ⟨h1, h2, h3⟩ := h
    subst h1 h2 h3
    exact ⟨[], by simp, by simp, by simp, fun q hq => hq, fun q _ => rfl, by simp⟩
  | cons e rest ih =>
    obtain ⟨k, v⟩ := e
    unfold fixing at h
    by_cases hv : v = notFound
    · simp only [hv, if_true] at h
      cases hold : mapGet lddOld k with
      | none => rw [hold] at h; cases h
      | some p =>
        rw [hold] at h
        simp only at h
        cases hcp : copyFromTo w fs p dirName with
        | none => rw [hcp] at h; cases h
        | some r =>
          obtain ⟨np, fs1⟩ := r
          rw [hcp] at h
          simp only at h
          obtain ⟨new, hnew, hall, hdirty, hmono, hframe, hin⟩ := ih _ _ _ h
          obtain ⟨hnp, data, -, -, hfs1⟩ := copyFromTo_eq_some w fs fs1 p dirName np hcp
          refine ⟨(p, np) :: new, ?_, ?_, ?_, ?_, ?_, ?_⟩
          · rw [hnew]; simp
          · simp only [hv, decide_True, List.filter_cons_of_pos]
            exact List.Forall₂.cons ⟨hold, hnp⟩ hall
          · rw [hdirty]; simp
          · intro q hq
            apply hmono
            rw [hfs1]
            exact (mem_mapKeys_mapSet fs np q data).mpr (Or.inr hq)
          · intro q hq
            simp only [List.map_cons, List.mem_cons, not_or] at hq
            rw [hframe q hq.2, hfs1]
            exact mapGet_mapSet_ne fs np q data hq.1
          · intro c hc
            rcases List.mem_cons.mp hc with hc | hc
            · subst hc
              apply hmono
              rw [hfs1]
              exact (mem_mapKeys_mapSet fs np np data).mpr (Or.inl rfl)
            · exact hin c hc
    · simp only [hv, if_false] at h
      obtain ⟨new, hnew, hall, hdirty, hmono, hframe, hin⟩ := ih _ _ _ h
      refine ⟨new, hnew, ?_, hdirty, hmono, hframe, hin⟩
      simp only [hv, decide_False, Bool.false_eq_true, not_false_eq_true,
        List.filter_cons_of_neg]
      exact hall

/-- A pass over entries none of which is unresolved copies nothing and changes nothing. -/
theorem fixing_clean (w : World) (lddOld : GoMap) (ord : List (Str × Str)) (fs : Dir)
    (copies : List TransplantRecord) (dirty : Bool)
    (h : ∀ e ∈ ord, e.2 ≠ notFound) :
    fixing w lddOld ord fs copies dirty = .ok (fs, copies, dirty) := by
  induction ord with
  | nil => rfl
  | cons e rest ih =>
    obtain ⟨k, v⟩ := e
    have hv : v ≠ notFound := h (k, v) (List.mem_cons_self _ _)
    unfold fixing
    simp only [hv, if_false]
    exact ih (fun e he => h e (List.mem_cons_of_mem _ he))

/-- A pass that has an unresolved entry the source's map lacks ends in `log.Fatal`:
with "Cannot find library on source" for such an entry, or with "Cannot find binary"
because the copy for an unresolved entry the source's map has failed. -/
theorem fixing_error_of_missing (w : World) (lddOld : GoMap) (ord : List (Str × Str))
    (fs : Dir) (copies : List TransplantRecord) (dirty : Bool) (k : Str)
    (hk : (k, notFound) ∈ ord) (hmiss : mapGet lddOld k = none) :
    ∃ e, fixing w lddOld ord fs copies dirty = .error e ∧
      ((∃ k0, e = .cannotFindLibraryOnSource k0 ∧ (k0, notFound) ∈ ord ∧
          mapGet lddOld k0 = none) ∨
        (e = .cannotFindBinary ∧ ∃ k0 p fs0, (k0, notFound) ∈ ord ∧
          mapGet lddOld k0 = some p ∧ copyFromTo w fs0 p dirName = none)) := by
  induction ord generalizing fs copies dirty with
  | nil => cases hk
  | cons e rest ih =>
    obtain ⟨k1, v⟩ := e
    unfold fixing
    by_cases hv : v = notFound
    · subst hv
      simp only [if_true]
      cases hold : mapGet lddOld k1 with
      | none =>
        exact ⟨_, rfl, Or.inl ⟨k1, rfl, List.mem_cons_self _ _, hold⟩⟩
      | some p =>
        simp only
        cases hcp : copyFromTo w fs p dirName with
        | none =>
          exact ⟨_, rfl, Or.inr ⟨rfl, k1, p, fs, List.mem_cons_self _ _, hold, hcp⟩⟩
        | some r =>
          obtain ⟨np, fs1⟩ := r
          simp only
          have hk' : (k, notFound) ∈ rest := by
            rcases List.mem_cons.mp hk with heq | hmem
            · cases heq
              rw [hmiss] at hold
              cases hold
            · exact hmem
          obtain ⟨e, he, hkind⟩ := ih fs1 (copies ++ [(p, np)]) true hk'
          refine ⟨e, he, ?_⟩
          rcases hkind with ⟨k0, h0, h1, h2⟩ | ⟨h0, k0, p0, fs0, h1, h2, h3⟩
          · exact Or.inl ⟨k0, h0, List.mem_cons_of_mem _ h1, h2⟩
          · exact Or.inr ⟨h0, k0, p0, fs0, List.mem_cons_of_mem _ h1, h2, h3⟩
    · simp only [hv, if_false]
      have hk' : (k, notFound) ∈ rest := by
        rcases List.mem_cons.mp hk with heq | hmem
        · cases heq
          exact absurd rfl hv
        · exact hmem
      obtain ⟨e, he, hkind⟩ := ih fs copies dirty hk'
      refine ⟨e, he, ?_⟩
      rcases hkind with ⟨k0, h0, h1, h2⟩ | ⟨h0, k0, p0, fs0, h1, h2, h3⟩
      · exact Or.inl ⟨k0, h0, List.mem_cons_of_mem _ h1, h2⟩
      · exact Or.inr ⟨h0, k0, p0, fs0, List.mem_cons_of_mem _ h1, h2, h3⟩

/-- A pass in which every unresolved entry is in the source's map and every copy
succeeds ends without `log.Fatal`. -/
theorem fixing_total (w : World) (lddOld : GoMap) (ord : List (Str × Str))
    (fs : Dir) (copies : List TransplantRecord) (dirty : Bool)
    (hin : ∀ k, (k, notFound) ∈ ord → (mapGet lddOld k).isSome)
    (hcopy : ∀ k p fs0, (k, notFound) ∈ ord → mapGet lddOld k = some p →
      (copyFromTo w fs0 p dirName).isSome) :
    ∃ r, fixing w lddOld ord fs copies dirty = .ok r := by
  induction ord generalizing fs copies dirty with
  | nil => exact ⟨_, rfl⟩
  | cons e rest ih =>
    obtain ⟨k, v⟩ := e
    have ihr := fun fs copies dirty => ih fs copies dirty
      (fun k0 h0 => hin k0 (List.mem_cons_of_mem _ h0))
      (fun k0 p fs0 h0 => hcopy k0 p fs0 (List.mem_cons_of_mem _ h0))
    unfold fixing
    by_cases hv : v = notFound
    · subst hv
      simp only [if_true]
      have hsome := hin k (List.mem_cons_self _ _)
      cases hold : mapGet lddOld k with
      | none => rw [hold] at hsome; cases hsome
      | some p =>
        simp only
        have hc := hcopy k p fs (List.mem_cons_self _ _) hold
        cases hcp : copyFromTo w fs p dirName with
        | none => rw [hcp] at hc; cases hc
        | some r =>
          obtain ⟨np, fs1⟩ := r
          exact ihr _ _ _
    · simp only [hv, if_false]
      exact ihr _ _ _

/-- One pass of the loop, when the destination's `ldd` answers `raw`. -/
theorem closure_succ (w : World) (job : Nat) (lddOld : GoMap) (newPath : Str)
    (fuel pass : Nat) (fs : Dir) (passes : List (List TransplantRecord)) (raw : Str)
    (hraw : w.lddDest fs newPath = some raw) :
    closure w job lddOld newPath (fuel + 1) pass fs passes =
      match fixing w lddOld (w.rangeOrder job pass (lddIt (strings.TrimSpace raw))) fs []
          false with
      | .error e => .failed e passes
      | .ok (fs', copies, dirty) =>
        if !dirty then .done fs' (passes ++ [copies])
        else closure w job lddOld newPath fuel (pass + 1) fs' (passes ++ [copies]) := by
  rw [closure]
  simp only [runJobInContainer, hraw, Option.map_some']

theorem closure_ldd_failed (w : World) (job : Nat) (lddOld : GoMap) (newPath : Str)
    (fuel pass : Nat) (fs : Dir) (passes : List (List TransplantRecord))
    (hraw : w.lddDest fs newPath = none) :
    closure w job lddOld newPath (fuel + 1) pass fs passes =
      .failed .cannotMakeLddRaw passes := by
  rw [closure]
  simp only [runJobInContainer, hraw, Option.map_none']

theorem forall₂_and_left {α β : Type} {P : α → Prop} {R : α → β → Prop} {l1 : List α}
    {l2 : List β} (h : List.Forall₂ R l1 l2) (hp : ∀ a ∈ l1, P a) :
    List.Forall₂ (fun a b => P a ∧ R a b) l1 l2 := by
  induction h with
  | nil => exact List.Forall₂.nil
  | cons hhead _ ih =>
    exact List.Forall₂.cons ⟨hp _ (List.mem_cons_self _ _), hhead⟩
      (ih (fun a ha => hp a (List.mem_cons_of_mem _ ha)))

/-- The entries `range` visits are those of the map it ranges over, whatever the order:
an entry visited as unresolved is an unresolved entry of the map read by `lddIt`. -/
theorem mem_order_iff_mapGet (report : Str) (ord : List (Str × Str))
    (hperm : ord.Perm (lddIt report)) (k v : Str) :
    (k, v) ∈ ord ↔ mapGet (lddIt report) k = some v := by
  rw [hperm.mem_iff]
  exact ⟨mapGet_of_mem _ (nodup_mapKeys_lddIt report) k v, mem_of_mapGet _ k v⟩

/-! ## Claims about the closure loop -/

/-- Claim C4, amended: a pass whose destination map marks a soname unresolved that the
source's map lacks ends the run in `log.Fatal` in that very pass, so the loop neither
reaches DONE nor checks again; the failure is "Cannot find library on source" for such a
soname, unless the copy for another unresolved soname, visited earlier, failed first
("Cannot find binary"); with every copy succeeding it is "Cannot find library on
source". -/
theorem closure_fails_when_source_lacks_soname (w : World) (job : Nat) (lddOld : GoMap)
    (newPath : Str) (fuel pass : Nat) (fs : Dir) (passes : List (List TransplantRecord))
    (raw k : Str)
    (hraw : w.lddDest fs newPath = some raw)
    (hperm : (w.rangeOrder job pass (lddIt (strings.TrimSpace raw))).Perm
      (lddIt (strings.TrimSpace raw)))
    (hk : mapGet (lddIt (strings.TrimSpace raw)) k = some notFound)
    (hmiss : mapGet lddOld k = none) :
    ∃ e, closure w job lddOld newPath (fuel + 1) pass fs passes = .failed e passes ∧
      ((∃ k0, e = .cannotFindLibraryOnSource k0 ∧
          mapGet (lddIt (strings.TrimSpace raw)) k0 = some notFound ∧
          mapGet lddOld k0 = none) ∨
        (e = .cannotFindBinary ∧ ∃ k0 p fs0,
          mapGet (lddIt (strings.TrimSpace raw)) k0 = some notFound ∧
          mapGet lddOld k0 = some p ∧ copyFromTo w fs0 p dirName = none)) ∧
      ((∀ k0 p fs0, mapGet (lddIt (strings.TrimSpace raw)) k0 = some notFound →
          mapGet lddOld k0 = some p → (copyFromTo w fs0 p dirName).isSome) →
        ∃ k0, e = .cannotFindLibraryOnSource k0 ∧
          mapGet (lddIt (strings.TrimSpace raw)) k0 = some notFound ∧
          mapGet lddOld k0 = none) := by
  have hmem := (mem_order_iff_mapGet _ _ hperm k notFound).mpr hk
  obtain ⟨e, he, hkind⟩ := fixing_error_of_missing w lddOld _ fs [] false k hmem hmiss
  have hkind' : (∃ k0, e = .cannotFindLibraryOnSource k0 ∧
          mapGet (lddIt (strings.TrimSpace raw)) k0 = some notFound ∧
          mapGet lddOld k0 = none) ∨
        (e = .cannotFindBinary ∧ ∃ k0 p fs0,
          mapGet (lddIt (strings.TrimSpace raw)) k0 = some notFound ∧
          mapGet lddOld k0 = some p ∧ copyFromTo w fs0 p dirName = none) := by
    rcases hkind with ⟨k0, h0, h1, h2⟩ | ⟨h0, k0, p, fs0, h1, h2, h3⟩
    · exact Or.inl ⟨k0, h0, (mem_order_iff_mapGet _ _ hperm k0 notFound).mp h1, h2⟩
    · exact Or.inr ⟨h0, k0, p, fs0, (mem_order_iff_mapGet _ _ hperm k0 notFound).mp h1, h2, h3⟩
  refine ⟨e, ?_, hkind', ?_⟩
  · rw [closure_succ w job lddOld newPath fuel pass fs passes raw hraw, he]
  · intro hcopy
    rcases hkind' with h | ⟨-, k0, p, fs0, h1, h2, h3⟩
    · exact h
    · have := hcopy k0 p fs0 h1 h2
      rw [h3] at this
      cases this

/-- Claim C9: the loop is left in DONE exactly on a clean pass. If it ends in DONE with
directory `fs'`, the last pass read a fresh report on `fs'` that has no unresolved entry
and made no copy; a pass whose fresh report has no unresolved entry ends the loop in DONE
at once, the directory unchanged; and a pass whose report has an unresolved entry does
not end in DONE. -/
theorem closure_done_iff_clean_pass (w : World) (job : Nat) (lddOld : GoMap)
    (newPath : Str) (hperm : ∀ j p m, (w.rangeOrder j p m).Perm m) :
    (∀ fuel pass fs passes fs' ps,
      closure w job lddOld newPath fuel pass fs passes = .done fs' ps →
      ∃ raw, w.lddDest fs' newPath = some raw ∧
        (∀ e ∈ lddIt (strings.TrimSpace raw), e.2 ≠ notFound) ∧
        ∃ earlier, ps = earlier ++ [[]]) ∧
    (∀ fuel pass fs passes raw, w.lddDest fs newPath = some raw →
      (∀ e ∈ lddIt (strings.TrimSpace raw), e.2 ≠ notFound) →
      closure w job lddOld newPath (fuel + 1) pass fs passes = .done fs (passes ++ [[]])) ∧
    (∀ pass fs passes raw, w.lddDest fs newPath = some raw →
      (∃ e ∈ lddIt (strings.TrimSpace raw), e.2 = notFound) →
      ∀ fs' ps, closure w job lddOld newPath 1 pass fs passes ≠ .done fs' ps) := by
  refine ⟨?_, ?_, ?_⟩
  · intro fuel
    induction fuel with
    | zero =>
      intro pass fs passes fs' ps h
      simp [closure] at h
    | succ fuel ih =>
      intro pass fs passes fs' ps h
      cases hraw : w.lddDest fs newPath with
      | none =>
        rw [closure_ldd_failed w job lddOld newPath fuel pass fs passes hraw] at h
        cases h
      | some raw =>
        rw [closure_succ w job lddOld newPath fuel pass fs passes raw hraw] at h
        cases hfix : fixing w lddOld (w.rangeOrder job pass (lddIt (strings.TrimSpace raw)))
            fs [] false with
        | error e => rw [hfix] at h; cases h
        | ok r =>
          obtain ⟨fs1, copies, dirty⟩ := r
          rw [hfix] at h
          simp only at h
          cases dirty with
          | true =>
            simp only [Bool.not_true, Bool.false_eq_true, if_false] at h
            exact ih _ _ _ _ _ h
          | false =>
            simp only [Bool.not_false, if_true, Outcome.done.injEq] at h
            obtain ⟨h1, h2⟩ := h
            obtain ⟨new, hnew, hall, hdirty, -, -, -⟩ := fixing_ok _ _ _ _ _ _ _ _ _ hfix
            have hempty : new = [] := by
              cases new with
              | nil => rfl
              | cons c cs => simp at hdirty
            subst hempty
            have hfilter := List.forall₂_nil_right_iff.mp hall
            have hclean : ∀ e ∈ w.rangeOrder job pass (lddIt (strings.TrimSpace raw)),
                e.2 ≠ notFound := by
              intro e he hv
              have : e ∈ List.filter (fun e => decide (e.2 = notFound))
                  (w.rangeOrder job pass (lddIt (strings.TrimSpace raw))) := by
                rw [List.mem_filter]
                exact ⟨he, by simp [hv]⟩
              rw [hfilter] at this
              cases this
            rw [fixing_clean _ _ _ _ _ _ hclean] at hfix
            simp only [Except.ok.injEq, Prod.mk.injEq] at hfix
            obtain ⟨hfs, hcopies, -⟩ := hfix
            subst h1
            subst hfs
            refine ⟨raw, hraw, ?_, passes, ?_⟩
            · intro e he
              exact hclean e ((hperm job pass _).mem_iff.mpr he)
            · rw [← h2, ← hcopies]
  · intro fuel pass fs passes raw hraw hclean
    rw [closure_succ w job lddOld newPath fuel pass fs passes raw hraw,
      fixing_clean _ _ _ _ _ _
        (fun e he => hclean e ((hperm job pass _).mem_iff.mp he))]
    simp
  · intro pass fs passes raw hraw hdirty fs' ps h
    obtain ⟨e, he, hv⟩ := hdirty
    rw [closure_succ w job lddOld newPath 0 pass fs passes raw hraw] at h
    cases hfix : fixing w lddOld (w.rangeOrder job pass (lddIt (strings.TrimSpace raw)))
        fs [] false with
    | error e => rw [hfix] at h; cases h
    | ok r =>
      obtain ⟨fs1, copies, dirty⟩ := r
      rw [hfix] at h
      simp only at h
      obtain ⟨new, hnew, hall, hdirty, -, -, -⟩ := fixing_ok _ _ _ _ _ _ _ _ _ hfix
      have hmem : e ∈ List.filter (fun e => decide (e.2 = notFound))
          (w.rangeOrder job pass (lddIt (strings.TrimSpace raw))) := by
        rw [List.mem_filter]
        exact ⟨(hperm job pass _).mem_iff.mpr he, by simp [hv]⟩
      have hne : new ≠ [] := by
        intro hnil
        subst hnil
        rw [List.forall₂_nil_right_iff.mp hall] at hmem
        cases hmem
      have hd : dirty = true := by
        rw [hdirty]
        cases new with
        | nil => exact absurd rfl hne
        | cons c cs => simp
      subst hd
      simp [closure] at h

/-- Claim C10: in a pass in which every unresolved soname of the destination's map is a
key of the source's map and every copy succeeds, the copies made match the unresolved
entries visited one for one, each copying the path the source's map gives for that
soname into the library directory `dirName`; the sonames copied are distinct and are
exactly the unresolved sonames of the destination's map, so a resolved entry gets no
copy; and for the report `"libfoo.so => not found"` there is exactly one copy, of the
source's path for `libfoo.so`. -/
theorem fixing_copies_one_per_unresolved (w : World) (lddOld : GoMap) (report : Str)
    (ord : List (Str × Str)) (fs : Dir)
    (hperm : ord.Perm (lddIt report))
    (hin : ∀ k, mapGet (lddIt report) k = some notFound → (mapGet lddOld k).isSome)
    (hcopy : ∀ k p fs0, mapGet (lddIt report) k = some notFound →
      mapGet lddOld k = some p → (copyFromTo w fs0 p dirName).isSome) :
    ∃ fs' copies, fixing w lddOld ord fs [] false = .ok (fs', copies, !copies.isEmpty) ∧
      List.Forall₂
        (fun e c => e.2 = notFound ∧ mapGet lddOld e.1 = some c.1 ∧
          c.2 = path.Join [dirName, path.Base c.1])
        (ord.filter (fun e => decide (e.2 = notFound))) copies ∧
      ((ord.filter (fun e => decide (e.2 = notFound))).map Prod.fst).Nodup ∧
      (∀ k, k ∈ (ord.filter (fun e => decide (e.2 = notFound))).map Prod.fst ↔
        mapGet (lddIt report) k = some notFound) ∧
      (report = "libfoo.so => not found".toList →
        ∃ p, mapGet lddOld "libfoo.so".toList = some p ∧
          copies = [(p, path.Join [dirName, path.Base p])]) := by
  have hmem := mem_order_iff_mapGet report ord hperm
  obtain ⟨r, hr⟩ := fixing_total w lddOld ord fs [] false
    (fun k hk => hin k ((hmem k notFound).mp hk))
    (fun k p fs0 hk => hcopy k p fs0 ((hmem k notFound).mp hk))
  obtain ⟨fs', copies, dirty⟩ := r
  obtain ⟨new, hnew, hall, hdirty, -, -, -⟩ := fixing_ok _ _ _ _ _ _ _ _ _ hr
  simp only [List.nil_append] at hnew
  subst hnew
  simp only [Bool.false_or] at hdirty
  subst hdirty
  have hall' : List.Forall₂
      (fun e c => e.2 = notFound ∧ mapGet lddOld e.1 = some c.1 ∧
        c.2 = path.Join [dirName, path.Base c.1])
      (ord.filter (fun e => decide (e.2 = notFound))) copies :=
    forall₂_and_left hall (fun e he => by simpa using (List.mem_filter.mp he).2)
  have hnd : ((ord.filter (fun e => decide (e.2 = notFound))).map Prod.fst).Nodup := by
    have h1 : (ord.map Prod.fst).Nodup :=
      (hperm.map Prod.fst).nodup_iff.mpr (nodup_mapKeys_lddIt report)
    exact (List.filter_sublist ord).map Prod.fst |>.nodup h1
  refine ⟨fs', copies, hr, hall', hnd, ?_, ?_⟩
  · intro k
    rw [← hmem k notFound]
    simp only [List.mem_map, List.mem_filter, decide_eq_true_eq, Prod.exists,
      exists_and_right, exists_eq_right]
  · intro hreport
    subst hreport
    have hmap : lddIt "libfoo.so => not found".toList = [("libfoo.so".toList, notFound)] := by
      decide
    rw [hmap] at hperm
    have hord := List.perm_singleton.mp hperm
    subst hord
    have hfilter : List.filter (fun e => decide (e.2 = notFound))
        [("libfoo.so".toList, notFound)] = [("libfoo.so".toList, notFound)] := by
      decide
    rw [hfilter] at hall'
    cases hall' with
    | cons hhead htail =>
      cases htail
      obtain ⟨-, h1, h2⟩ := hhead
      rename_i c
      refine ⟨c.1, h1, ?_⟩
      rw [← h2]

/-! ## Facts about `path.Base` and `path.Join` -/

theorem Base_ne_nil (p : Str) : path.Base p ≠ [] := by
  unfold path.Base
  by_cases hp : p = []
  · simp [hp]
  · simp only [hp, if_false]
    split <;> simp_all

/-- The base name holds a slash only when it is the root `"/"`. -/
theorem Base_eq_root_of_slash_mem (p : Str) (h : '/' ∈ path.Base p) : path.Base p = ['/'] := by
  unfold path.Base at h ⊢
  by_cases hp : p = []
  · simp [hp] at h
  · simp only [hp, if_false] at h ⊢
    split
    · rfl
    · next hne =>
      simp only [hne, if_false] at h
      have := List.mem_takeWhile_imp (List.mem_reverse.mp h)
      simp at this

theorem Split_of_not_mem (s : Str) (sep : Char) (h : sep ∉ s) : strings.Split s sep = [s] := by
  induction s with
  | nil => rfl
  | cons c cs ih =>
    have hc : c ≠ sep := fun hc => h (by simp [hc])
    have hcs : sep ∉ cs := fun hcs => h (List.mem_cons_of_mem _ hcs)
    rw [strings.Split]
    simp only [hc, if_false, ih hcs]

theorem Split_append_sep (a b : Str) (sep : Char) (h : sep ∉ a) :
    strings.Split (a ++ sep :: b) sep = a :: strings.Split b sep := by
  induction a with
  | nil =>
    simp only [List.nil_append]
    rw [strings.Split]
    simp
  | cons c cs ih =>
    have hc : c ≠ sep := fun hc => h (by simp [hc])
    have hcs : sep ∉ cs := fun hcs => h (List.mem_cons_of_mem _ hcs)
    simp only [List.cons_append]
    rw [strings.Split]
    simp only [hc, if_false, ih hcs]

theorem joinElems_cons_cons (c d : Str) (ds : List Str) :
    path.joinElems (c :: d :: ds) = c ++ '/' :: path.joinElems (d :: ds) := by
  simp [path.joinElems]

theorem Split_joinElems (comps : List Str) (hne : comps ≠ [])
    (h : ∀ c ∈ comps, '/' ∉ c) : strings.Split (path.joinElems comps) '/' = comps := by
  induction comps with
  | nil => exact absurd rfl hne
  | cons c cs ih =>
    cases cs with
    | nil => exact Split_of_not_mem c '/' (h c (List.mem_cons_self _ _))
    | cons d ds =>
      rw [joinElems_cons_cons, Split_append_sep _ _ _ (h c (List.mem_cons_self _ _)),
        ih (by simp) (fun e he => h e (List.mem_cons_of_mem _ he))]

theorem joinElems_append_singleton (comps : List Str) (b : Str) (hne : comps ≠ []) :
    path.joinElems (comps ++ [b]) = path.joinElems comps ++ '/' :: b := by
  induction comps with
  | nil => exact absurd rfl hne
  | cons c cs ih =>
    cases cs with
    | nil => simp [path.joinElems]
    | cons d ds =>
      have := ih (by simp)
      simp only [List.cons_append] at this ⊢
      rw [joinElems_cons_cons, this, joinElems_cons_cons]
      simp

theorem foldl_cleanElem_of_names (rooted : Bool) (comps out : List Str)
    (h : ∀ c ∈ comps, isName c) :
    comps.foldl (path.cleanElem rooted) out = comps.reverse ++ out := by
  induction comps generalizing out with
  | nil => rfl
  | cons c cs ih =>
    obtain ⟨h1, h2, h3, -⟩ := h c (List.mem_cons_self _ _)
    simp only [List.foldl_cons]
    rw [ih _ (fun e he => h e (List.mem_cons_of_mem _ he))]
    simp [path.cleanElem, h1, h2, h3]

/-- Joining a clean rooted directory and a file name puts one slash between them. -/
theorem Join_rooted_names (comps : List Str) (b : Str) (hne : comps ≠ [])
    (h : ∀ c ∈ comps, isName c) (hb : isName b) :
    path.Join ['/' :: path.joinElems comps, b] = ('/' :: path.joinElems comps) ++ '/' :: b := by
  have hall : ∀ c ∈ comps ++ [b], isName c := by
    intro c hc
    rcases List.mem_append.mp hc with hc | hc
    · exact h c hc
    · rw [List.mem_singleton.mp hc]; exact hb
  have hbuf : path.joinBuf [] ['/' :: path.joinElems comps, b]
      = '/' :: path.joinElems (comps ++ [b]) := by
    rw [joinElems_append_singleton comps b hne]
    simp [path.joinBuf]
  have hsplit : strings.Split ('/' :: path.joinElems (comps ++ [b])) '/'
      = [] :: (comps ++ [b]) := by
    rw [strings.Split]
    simp only [if_true]
    rw [Split_joinElems _ (by simp) (fun c hc => (hall c hc).2.2.2)]
  unfold path.Join
  have hsum : (List.map List.length ['/' :: path.joinElems comps, b]).sum ≠ 0 := by
    simp
  rw [if_neg hsum, hbuf]
  unfold path.Clean
  simp only [hsplit, List.head?_cons, decide_True, List.foldl_cons, if_true]
  have hfirst : path.cleanElem true [] [] = [] := by simp [path.cleanElem]
  rw [hfirst, foldl_cleanElem_of_names true _ [] hall]
  simp only [List.append_nil, List.reverse_reverse]
  rw [joinElems_append_singleton comps b hne]
  simp

theorem dirName_eq_joinElems :
    dirName = '/' :: path.joinElems ["tmp".toList, "magiclibs".toList] := by
  decide

/-! ## Claims about `copyFromTo` -/

/-- Claim C8, amended: a successful copy writes to and returns the path
`path.Join(destDir, path.Base(srcPath))`, the lexically cleaned join, and afterwards the
destination holds at that path exactly the bytes the source has at `srcPath`, every
other path as before; the returned path is `destDir + "/" + basename(srcPath)` whenever
the destination directory is a clean rooted path of file names (as the program's
`/tmp/magiclibs` is) and the base name is a file name (not `.`, `..` or `/`). -/
theorem copyFromTo_writes_joined_path (w : World) (fs fs' : Dir) (p1 p2 dp : Str)
    (h : copyFromTo w fs p1 p2 = some (dp, fs')) :
    dp = path.Join [p2, path.Base p1] ∧
    (∃ B, w.cat p1 = some B ∧ mapGet fs' dp = some B ∧ fs' = mapSet fs dp B) ∧
    (∀ q, q ≠ dp → mapGet fs' q = mapGet fs q) ∧
    (∀ comps, comps ≠ [] → (∀ c ∈ comps, isName c) → p2 = '/' :: path.joinElems comps →
      path.Base p1 ≠ ['.'] → path.Base p1 ≠ ['.', '.'] → path.Base p1 ≠ ['/'] →
      dp = p2 ++ '/' :: path.Base p1) ∧
    (p2 = dirName →
      path.Base p1 ≠ ['.'] → path.Base p1 ≠ ['.', '.'] → path.Base p1 ≠ ['/'] →
      dp = dirName ++ '/' :: path.Base p1) := by
  obtain ⟨hdp, data, hcat, -, hfs⟩ := copyFromTo_eq_some w fs fs' p1 p2 dp h
  have hgen : ∀ comps, comps ≠ [] → (∀ c ∈ comps, isName c) →
      p2 = '/' :: path.joinElems comps →
      path.Base p1 ≠ ['.'] → path.Base p1 ≠ ['.', '.'] → path.Base p1 ≠ ['/'] →
      dp = p2 ++ '/' :: path.Base p1 := by
    intro comps hne hnames hp2 h1 h2 h3
    have hb : isName (path.Base p1) :=
      ⟨Base_ne_nil p1, h1, h2, fun hs => h3 (Base_eq_root_of_slash_mem p1 hs)⟩
    rw [hdp, hp2]
    exact Join_rooted_names comps _ hne hnames hb
  refine ⟨hdp, ⟨data, hcat, ?_, hfs⟩, ?_, hgen, ?_⟩
  · rw [hfs]
    exact mapGet_mapSet_same fs dp data
  · intro q hq
    rw [hfs]
    exact mapGet_mapSet_ne fs dp q data hq
  · intro hp2 h1 h2 h3
    have hnames : ∀ c ∈ ["tmp".toList, "magiclibs".toList], isName c := by
      intro c hc
      simp only [List.mem_cons, List.mem_singleton, List.not_mem_nil, or_false] at hc
      rcases hc with hc | hc <;> subst hc <;> unfold isName <;> decide
    have := hgen ["tmp".toList, "magiclibs".toList] (by simp) hnames
      (hp2.trans dirName_eq_joinElems) h1 h2 h3
    rw [this, hp2]

/-- Instance of `copyFromTo_writes_joined_path`: copying `/usr/lib/libfoo.so` of
`libfooWorld` into the empty library directory. -/
theorem copyFromTo_writes_joined_path_witness :
    copyFromTo libfooWorld [] "/usr/lib/libfoo.so".toList dirName
      = some ("/tmp/magiclibs/libfoo.so".toList, [("/tmp/magiclibs/libfoo.so".toList, [1, 2])]) ∧
    "/tmp/magiclibs/libfoo.so".toList = dirName ++ '/' :: path.Base "/usr/lib/libfoo.so".toList ∧
    mapGet [("/tmp/magiclibs/libfoo.so".toList, [1, 2])] "/tmp/magiclibs/libfoo.so".toList
      = libfooWorld.cat "/usr/lib/libfoo.so".toList :=
  have h : copyFromTo libfooWorld [] "/usr/lib/libfoo.so".toList dirName
      = some ("/tmp/magiclibs/libfoo.so".toList,
          [("/tmp/magiclibs/libfoo.so".toList, [1, 2])]) := by decide
  ⟨h, (copyFromTo_writes_joined_path libfooWorld [] _ _ dirName _ h).2.2.2.2 rfl
      (by decide) (by decide) (by decide), by decide⟩

/-- Claim C8 as stated fails: a copy into the directory `"/tmp/magiclibs/"` (written
with a trailing slash) returns `"/tmp/magiclibs/libfoo.so"`, which is not
`destDir + "/" + basename(srcPath)`; and for the directory `"/tmp/magiclibs/x/.."` the
returned path is `"/tmp/magiclibs/libfoo.so"` too. -/
theorem copyFromTo_path_is_cleaned :
    (copyFromTo libfooWorld [] "/usr/lib/libfoo.so".toList "/tmp/magiclibs/".toList).map
        Prod.fst = some "/tmp/magiclibs/libfoo.so".toList ∧
    "/tmp/magiclibs/".toList ++ '/' :: path.Base "/usr/lib/libfoo.so".toList
      = "/tmp/magiclibs//libfoo.so".toList ∧
    (copyFromTo libfooWorld [] "/usr/lib/libfoo.so".toList "/tmp/magiclibs/".toList).map
        Prod.fst
      ≠ some ("/tmp/magiclibs/".toList ++ '/' :: path.Base "/usr/lib/libfoo.so".toList) ∧
    (copyFromTo libfooWorld [] "/usr/lib/libfoo.so".toList "/tmp/magiclibs/x/..".toList).map
        Prod.fst = some "/tmp/magiclibs/libfoo.so".toList := by
  decide

/-! ## Growth of the library directory -/

theorem closure_done_grows (w : World) (job : Nat) (lddOld : GoMap) (newPath : Str)
    (fuel pass : Nat) (fs fs' : Dir) (passes ps : List (List TransplantRecord))
    (h : closure w job lddOld newPath fuel pass fs passes = .done fs' ps) :
    ∃ more, ps = passes ++ more ∧
      (∀ q, q ∈ mapKeys fs → q ∈ mapKeys fs') ∧
      (∀ q, q ∉ more.flatten.map Prod.snd → mapGet fs' q = mapGet fs q) := by
  induction fuel generalizing pass fs passes with
  | zero => simp [closure] at h
  | succ fuel ih =>
    cases hraw : w.lddDest fs newPath with
    | none =>
      rw [closure_ldd_failed w job lddOld newPath fuel pass fs passes hraw] at h
      cases h
    | some raw =>
      rw [closure_succ w job lddOld newPath fuel pass fs passes raw hraw] at h
      cases hfix : fixing w lddOld (w.rangeOrder job pass (lddIt (strings.TrimSpace raw)))
          fs [] false with
      | error e => rw [hfix] at h; cases h
      | ok r =>
        obtain ⟨fs1, copies, dirty⟩ := r
        rw [hfix] at h
        simp only at h
        obtain ⟨new, hnew, -, -, hmono, hframe, -⟩ := fixing_ok _ _ _ _ _ _ _ _ _ hfix
        simp only [List.nil_append] at hnew
        subst hnew
        cases dirty with
        | false =>
          simp only [Bool.not_false, if_true, Outcome.done.injEq] at h
          obtain ⟨h1, h2⟩ := h
          subst h1
          refine ⟨[copies], h2.symm, hmono, ?_⟩
          intro q hq
          apply hframe
          simpa using hq
        | true =>
          simp only [Bool.not_true, Bool.false_eq_true, if_false] at h
          obtain ⟨more, hps, hmono', hframe'⟩ := ih _ _ _ h
          refine ⟨copies :: more, ?_, fun q hq => hmono' q (hmono q hq), ?_⟩
          · rw [hps]; simp
          · intro q hq
            simp only [List.flatten_cons, List.map_append, List.mem_append, not_or] at hq
            rw [hframe' q hq.2, hframe q hq.1]

theorem processBinary_done_grows (w : World) (fuel job : Nat) (fs fs' : Dir)
    (binaryName : Str) (ps : List (List TransplantRecord))
    (h : processBinary w fuel job fs binaryName = .done fs' ps) :
    (∀ q, q ∈ mapKeys fs → q ∈ mapKeys fs') ∧
      (∀ q, q ∉ ps.flatten.map Prod.snd → mapGet fs' q = mapGet fs q) := by
  unfold processBinary at h
  cases hwhich : runJobInContainer (w.which binaryName) with
  | none => rw [hwhich] at h; cases h
  | some binPath =>
    rw [hwhich] at h
    simp only at h
    cases hcp : copyFromTo w fs binPath dirName with
    | none => rw [hcp] at h; cases h
    | some r =>
      obtain ⟨newPath, fs1⟩ := r
      rw [hcp] at h
      simp only at h
      obtain ⟨-, data, -, -, hfs1⟩ := copyFromTo_eq_some w fs fs1 binPath dirName newPath hcp
      cases hch : w.chmodOk fs1 newPath with
      | false => rw [hch] at h; simp at h
      | true =>
        rw [hch] at h
        simp only [if_true] at h
        cases hldd : runJobInContainer (w.lddSource binPath) with
        | none => rw [hldd] at h; cases h
        | some lddRaw =>
          rw [hldd] at h
          simp only at h
          obtain ⟨more, hps, hmono, hframe⟩ := closure_done_grows _ _ _ _ _ _ _ _ _ _ h
          subst hps
          constructor
          · intro q hq
            apply hmono
            rw [hfs1]
            exact (mem_mapKeys_mapSet fs newPath q data).mpr (Or.inr hq)
          · intro q hq
            simp only [List.singleton_append, List.flatten_cons, List.map_append,
              List.map_cons, List.map_nil, List.mem_append, List.mem_singleton, not_or,
              List.cons_append, List.nil_append, List.mem_cons] at hq
            rw [hframe q hq.2, hfs1]
            exact mapGet_mapSet_ne fs newPath q data hq.1

theorem processAll_done_grows (w : World) (fuel job : Nat) (fs fs' : Dir)
    (binaries : List Str) (ps : List (List TransplantRecord))
    (h : processAll w fuel job fs binaries = .done fs' ps) :
    (∀ q, q ∈ mapKeys fs → q ∈ mapKeys fs') ∧
      (∀ q, q ∉ ps.flatten.map Prod.snd → mapGet fs' q = mapGet fs q) := by
  induction binaries generalizing job fs ps with
  | nil =>
    simp only [processAll, Outcome.done.injEq] at h
    obtain ⟨h1, h2⟩ := h
    subst h1 h2
    exact ⟨fun q hq => hq, fun q _ => rfl⟩
  | cons b rest ih =>
    unfold processAll at h
    cases hone : processBinary w fuel job fs b with
    | failed e ps1 => rw [hone] at h; cases h
    | running => rw [hone] at h; cases h
    | done fs1 ps1 =>
      rw [hone] at h
      simp only at h
      obtain ⟨hmono1, hframe1⟩ := processBinary_done_grows _ _ _ _ _ _ _ hone
      cases hrest : processAll w fuel (job + 1) fs1 rest with
      | failed e ps2 => rw [hrest] at h; cases h
      | running => rw [hrest] at h; cases h
      | done fs2 ps2 =>
        rw [hrest] at h
        simp only [Outcome.done.injEq] at h
        obtain ⟨h1, h2⟩ := h
        subst h1 h2
        obtain ⟨hmono2, hframe2⟩ := ih _ _ _ hrest
        constructor
        · intro q hq
          exact hmono2 q (hmono1 q hq)
        · intro q hq
          simp only [List.flatten_append, List.map_append, List.mem_append, not_or] at hq
          rw [hframe2 q hq.2, hframe1 q hq.1]

/-- Claim C7, amended: no copy removes a file, and a file's content changes only when a
copy writes to its very path. For one copy, for one pass over the destination's map, for
the closure loop of a job and for the whole run over the binaries: every path in the
library directory before is in it afterwards, and every path that is not the destination
of one of the copies made holds what it held; the destination of a copy holds the bytes
of the source file copied. -/
theorem library_directory_grows (w : World) :
    (∀ fs fs' p1 p2 dp, copyFromTo w fs p1 p2 = some (dp, fs') →
      (∀ q, q ∈ mapKeys fs → q ∈ mapKeys fs') ∧
      (∀ q, q ≠ dp → mapGet fs' q = mapGet fs q) ∧
      mapGet fs' dp = w.cat p1) ∧
    (∀ lddOld ord fs fs' copies dirty,
      fixing w lddOld ord fs [] false = .ok (fs', copies, dirty) →
      (∀ q, q ∈ mapKeys fs → q ∈ mapKeys fs') ∧
      (∀ q, q ∉ copies.map Prod.snd → mapGet fs' q = mapGet fs q)) ∧
    (∀ job lddOld newPath fuel pass fs passes fs' ps,
      closure w job lddOld newPath fuel pass fs passes = .done fs' ps →
      ∃ more, ps = passes ++ more ∧
        (∀ q, q ∈ mapKeys fs → q ∈ mapKeys fs') ∧
        (∀ q, q ∉ more.flatten.map Prod.snd → mapGet fs' q = mapGet fs q)) ∧
    (∀ fuel job fs binaries fs' ps,
      processAll w fuel job fs binaries = .done fs' ps →
      (∀ q, q ∈ mapKeys fs → q ∈ mapKeys fs') ∧
      (∀ q, q ∉ ps.flatten.map Prod.snd → mapGet fs' q = mapGet fs q)) := by
  refine ⟨?_, ?_, ?_, ?_⟩
  · intro fs fs' p1 p2 dp h
    obtain ⟨-, data, hcat, -, hfs⟩ := copyFromTo_eq_some w fs fs' p1 p2 dp h
    subst hfs
    refine ⟨?_, ?_, ?_⟩
    · intro q hq
      exact (mem_mapKeys_mapSet fs dp q data).mpr (Or.inr hq)
    · intro q hq
      exact mapGet_mapSet_ne fs dp q data hq
    · rw [hcat]
      exact mapGet_mapSet_same fs dp data
  · intro lddOld ord fs fs' copies dirty h
    obtain ⟨new, hnew, -, -, hmono, hframe, -⟩ := fixing_ok _ _ _ _ _ _ _ _ _ h
    simp only [List.nil_append] at hnew
    subst hnew
    exact ⟨hmono, hframe⟩
  · intro job lddOld newPath fuel pass fs passes fs' ps h
    exact closure_done_grows w job lddOld newPath fuel pass fs fs' passes ps h
  · intro fuel job fs binaries fs' ps h
    exact processAll_done_grows w fuel job fs fs' binaries ps h

/-- Instance of `library_directory_grows`: the run of `libfooWorld` for the binary `tool`
from a library directory that already holds a file `/tmp/magiclibs/old`. -/
theorem library_directory_grows_witness :
    processAll libfooWorld 2 0 [("/tmp/magiclibs/old".toList, [9])] ["tool".toList] =
      .done
        [("/tmp/magiclibs/old".toList, [9]),
          ("/tmp/magiclibs/tool".toList, [127, 69, 76, 70]),
          ("/tmp/magiclibs/libfoo.so".toList, [1, 2])]
        [[("/usr/bin/tool".toList, "/tmp/magiclibs/tool".toList)],
          [("/usr/lib/libfoo.so".toList, "/tmp/magiclibs/libfoo.so".toList)], []] ∧
    mapGet
        [("/tmp/magiclibs/old".toList, [9]),
          ("/tmp/magiclibs/tool".toList, [127, 69, 76, 70]),
          ("/tmp/magiclibs/libfoo.so".toList, [1, 2])]
        "/tmp/magiclibs/old".toList
      = mapGet [("/tmp/magiclibs/old".toList, [9])] "/tmp/magiclibs/old".toList :=
  have h : processAll libfooWorld 2 0 [("/tmp/magiclibs/old".toList, [9])] ["tool".toList] =
      .done
        [("/tmp/magiclibs/old".toList, [9]),
          ("/tmp/magiclibs/tool".toList, [127, 69, 76, 70]),
          ("/tmp/magiclibs/libfoo.so".toList, [1, 2])]
        [[("/usr/bin/tool".toList, "/tmp/magiclibs/tool".toList)],
          [("/usr/lib/libfoo.so".toList, "/tmp/magiclibs/libfoo.so".toList)], []] := by
    decide
  ⟨h, ((library_directory_grows libfooWorld).2.2.2 _ _ _ _ _ _ h).2 _ (by decide)⟩

/-- Claim C7 as stated fails: in `twoLibzWorld` the run for the binaries `a` and `b`
copies `/opt/a/lib/libz.so.1` to `/tmp/magiclibs/libz.so.1` while resolving `a`, and while
resolving `b` overwrites that file with the different bytes of `/usr/lib/libz.so.1`. -/
theorem library_file_overwritten_with_other_bytes :
    processAll twoLibzWorld 2 0 [] ["a".toList] =
      .done
        [("/tmp/magiclibs/a".toList, [1]), ("/tmp/magiclibs/libz.so.1".toList, [32])]
        [[("/opt/a/bin/a".toList, "/tmp/magiclibs/a".toList)],
          [("/opt/a/lib/libz.so.1".toList, "/tmp/magiclibs/libz.so.1".toList)], []] ∧
    processAll twoLibzWorld 2 0 [] ["a".toList, "b".toList] =
      .done
        [("/tmp/magiclibs/a".toList, [1]), ("/tmp/magiclibs/libz.so.1".toList, [64]),
          ("/tmp/magiclibs/b".toList, [2])]
        [[("/opt/a/bin/a".toList, "/tmp/magiclibs/a".toList)],
          [("/opt/a/lib/libz.so.1".toList, "/tmp/magiclibs/libz.so.1".toList)], [],
          [("/usr/bin/b".toList, "/tmp/magiclibs/b".toList)],
          [("/usr/lib/libz.so.1".toList, "/tmp/magiclibs/libz.so.1".toList)], []] ∧
    closure twoLibzWorld 1 (lddIt "libz.so.1 => /usr/lib/libz.so.1 (0x1)".toList)
        "/tmp/magiclibs/b".toList 2 0
        [("/tmp/magiclibs/a".toList, [1]), ("/tmp/magiclibs/libz.so.1".toList, [32]),
          ("/tmp/magiclibs/b".toList, [2])] [] =
      .done
        [("/tmp/magiclibs/a".toList, [1]), ("/tmp/magiclibs/libz.so.1".toList, [64]),
          ("/tmp/magiclibs/b".toList, [2])]
        [[("/usr/lib/libz.so.1".toList, "/tmp/magiclibs/libz.so.1".toList)], []] := by
  decide

/-! ## Termination of the closure loop -/

theorem copyFromTo_of_cat (w : World) (fs : Dir) (p1 p2 : Str) (data : Bytes)
    (hcat : w.cat p1 = some data)
    (htee : w.teeOk fs (path.Join [p2, path.Base p1]) data = true) :
    copyFromTo w fs p1 p2 =
      some (path.Join [p2, path.Base p1], mapSet fs (path.Join [p2, path.Base p1]) data) := by
  unfold copyFromTo
  simp only [hcat, htee, if_true]

theorem length_filter_lt_of_imp {α : Type} (p q : α → Bool) (l : List α)
    (himp : ∀ x ∈ l, q x = true → p x = true)
    (hex : ∃ x ∈ l, p x = true ∧ q x = false) :
    (l.filter q).length < (l.filter p).length := by
  induction l with
  | nil =>
    obtain ⟨x, hx, -⟩ := hex
    cases hx
  | cons a l ih =>
    have himp' : ∀ x ∈ l, q x = true → p x = true :=
      fun x hx => himp x (List.mem_cons_of_mem _ hx)
    have hle : (l.filter q).length ≤ (l.filter p).length := by
      clear ih hex
      induction l with
      | nil => simp
      | cons b l ih2 =>
        have h2 := ih2 (fun x hx hq => himp x (by
          rcases List.mem_cons.mp hx with h | h
          · simp [h]
          · simp [h]) hq) (fun x hx => himp' x (List.mem_cons_of_mem _ hx))
        cases hqb : q b with
        | false =>
          cases hpb : p b with
          | false => simpa [List.filter_cons, hqb, hpb] using h2
          | true =>
            simp only [List.filter_cons, hqb, hpb, if_true, List.length_cons]
            simp only [Bool.false_eq_true, if_false]
            omega
        | true =>
          have hpb := himp' b (List.mem_cons_self _ _) hqb
          simpa [List.filter_cons, hqb, hpb] using h2
    cases hqa : q a with
    | true =>
      have hpa := himp a (List.mem_cons_self _ _) hqa
      have hex' : ∃ x ∈ l, p x = true ∧ q x = false := by
        obtain ⟨x, hx, hpx, hqx⟩ := hex
        rcases List.mem_cons.mp hx with h | h
        · subst h
          rw [hqa] at hqx
          cases hqx
        · exact ⟨x, h, hpx, hqx⟩
      have := ih himp' hex'
      simpa [List.filter_cons, hqa, hpa] using this
    | false =>
      cases hpa : p a with
      | true =>
        simp only [List.filter_cons, hqa, hpa, if_true, List.length_cons]
        simp only [Bool.false_eq_true, if_false]
        omega
      | false =>
        have hex' : ∃ x ∈ l, p x = true ∧ q x = false := by
          obtain ⟨x, hx, hpx, hqx⟩ := hex
          rcases List.mem_cons.mp hx with h | h
          · subst h
            rw [hpa] at hpx
            cases hpx
          · exact ⟨x, h, hpx, hqx⟩
        have := ih himp' hex'
        simpa [List.filter_cons, hqa, hpa] using this

theorem forall₂_exists_of_mem_right {α β : Type} {R : α → β → Prop} {l1 : List α}
    {l2 : List β} (h : List.Forall₂ R l1 l2) (b : β) (hb : b ∈ l2) :
    ∃ a ∈ l1, R a b := by
  induction h with
  | nil => cases hb
  | cons hhead _ ih =>
    rcases List.mem_cons.mp hb with heq | hmem
    · subst heq
      exact ⟨_, List.mem_cons_self _ _, hhead⟩
    · obtain ⟨a, ha, hr⟩ := ih hmem
      exact ⟨a, List.mem_cons_of_mem _ ha, hr⟩

/-- A pass that adds a file to the library directory leaves fewer entries of the
source's map missing: the file added is the copy of an entry of that map. -/
theorem missing_decreases (w : World) (lddOld : GoMap) (ord : List (Str × Str))
    (fs fs' : Dir) (copies : List TransplantRecord) (dirty : Bool)
    (h : fixing w lddOld ord fs [] false = .ok (fs', copies, dirty))
    (hadd : ∃ q, q ∈ mapKeys fs' ∧ q ∉ mapKeys fs) :
    (missing lddOld fs').length < (missing lddOld fs).length := by
  obtain ⟨new, -, hall, -, hmono, hframe, -⟩ := fixing_ok _ _ _ _ _ _ _ _ _ h
  obtain ⟨q, hq', hq⟩ := hadd
  have hcopied : q ∈ new.map Prod.snd := by
    by_contra hnot
    have hsame := hframe q hnot
    rw [← mapGet_isSome_iff] at hq hq'
    rw [hsame] at hq'
    exact hq hq'
  obtain ⟨c, hc, hcq⟩ := List.mem_map.mp hcopied
  obtain ⟨e, -, hsrc, hdest⟩ := forall₂_exists_of_mem_right hall c hc
  unfold missing
  apply length_filter_lt_of_imp
  · intro x _ hx
    simp only [decide_eq_true_eq] at hx ⊢
    exact fun hmem => hx (hmono _ hmem)
  · refine ⟨(e.1, c.1), mem_of_mapGet _ _ _ hsrc, ?_, ?_⟩
    · simp only [decide_eq_true_eq]
      rw [← hdest, hcq]
      exact hq
    · simp only [decide_eq_false_iff_not, not_not]
      rw [← hdest, hcq]
      exact hq'

theorem closure_terminates_of_missing_lt (w : World) (job : Nat) (lddOld : GoMap)
    (newPath : Str)
    (hadds : ∀ pass fs0 raw fs1 copies, w.lddDest fs0 newPath = some raw →
      fixing w lddOld (w.rangeOrder job pass (lddIt (strings.TrimSpace raw))) fs0 [] false
        = .ok (fs1, copies, true) →
      ∃ q, q ∈ mapKeys fs1 ∧ q ∉ mapKeys fs0)
    (fuel pass : Nat) (fs : Dir) (passes : List (List TransplantRecord))
    (hlt : (missing lddOld fs).length < fuel) :
    closure w job lddOld newPath fuel pass fs passes ≠ .running := by
  induction fuel generalizing pass fs passes with
  | zero => omega
  | succ fuel ih =>
    cases hraw : w.lddDest fs newPath with
    | none =>
      rw [closure_ldd_failed w job lddOld newPath fuel pass fs passes hraw]
      simp
    | some raw =>
      rw [closure_succ w job lddOld newPath fuel pass fs passes raw hraw]
      cases hfix : fixing w lddOld (w.rangeOrder job pass (lddIt (strings.TrimSpace raw)))
          fs [] false with
      | error e => simp
      | ok r =>
        obtain ⟨fs1, copies, dirty⟩ := r
        cases dirty with
        | false => simp
        | true =>
          simp only [Bool.not_true, Bool.false_eq_true, if_false]
          apply ih
          have := missing_decreases w lddOld _ fs fs1 copies true hfix
            (hadds pass fs raw fs1 copies hraw hfix)
          omega

/-- More passes allowed change nothing once the loop has ended. -/
theorem closure_fuel_mono (w : World) (job : Nat) (lddOld : GoMap) (newPath : Str)
    (fuel n pass : Nat) (fs : Dir) (passes : List (List TransplantRecord))
    (h : closure w job lddOld newPath fuel pass fs passes ≠ .running) :
    closure w job lddOld newPath (fuel + n) pass fs passes =
      closure w job lddOld newPath fuel pass fs passes := by
  induction fuel generalizing pass fs passes with
  | zero => simp [closure] at h
  | succ fuel ih =>
    rw [show fuel + 1 + n = (fuel + n) + 1 by omega]
    cases hraw : w.lddDest fs newPath with
    | none =>
      rw [closure_ldd_failed w job lddOld newPath _ pass fs passes hraw,
        closure_ldd_failed w job lddOld newPath _ pass fs passes hraw]
    | some raw =>
      rw [closure_succ w job lddOld newPath _ pass fs passes raw hraw] at h ⊢
      rw [closure_succ w job lddOld newPath _ pass fs passes raw hraw]
      cases hfix : fixing w lddOld (w.rangeOrder job pass (lddIt (strings.TrimSpace raw)))
          fs [] false with
      | error e => rfl
      | ok r =>
        obtain ⟨fs1, copies, dirty⟩ := r
        rw [hfix] at h
        cases dirty with
        | false => rfl
        | true =>
          simp only [Bool.not_true, Bool.false_eq_true, if_false] at h ⊢
          exact ih _ _ _ h

/-- Claim C6, amended: if every pass that copies adds at least one file that was not in
the library directory, the loop ends, in DONE or in `log.Fatal`, within `|S| + 1` passes,
`S` the source's map: at most `|S|` passes that copy and one clean pass; allowing more
passes changes nothing. -/
theorem closure_terminates_under_progress (w : World) (job : Nat) (lddOld : GoMap)
    (newPath : Str) (pass : Nat) (fs : Dir) (passes : List (List TransplantRecord))
    (hadds : ∀ pass fs0 raw fs1 copies, w.lddDest fs0 newPath = some raw →
      fixing w lddOld (w.rangeOrder job pass (lddIt (strings.TrimSpace raw))) fs0 [] false
        = .ok (fs1, copies, true) →
      ∃ q, q ∈ mapKeys fs1 ∧ q ∉ mapKeys fs0) :
    closure w job lddOld newPath (lddOld.length + 1) pass fs passes ≠ .running ∧
    ∀ n, closure w job lddOld newPath (lddOld.length + 1 + n) pass fs passes =
      closure w job lddOld newPath (lddOld.length + 1) pass fs passes := by
  have hlt : (missing lddOld fs).length < lddOld.length + 1 := by
    unfold missing
    exact Nat.lt_succ_of_le (List.length_filter_le _ _)
  have hterm := closure_terminates_of_missing_lt w job lddOld newPath hadds
    (lddOld.length + 1) pass fs passes hlt
  exact ⟨hterm, fun n => closure_fuel_mono w job lddOld newPath _ n pass fs passes hterm⟩

/-! ## The claims at the example environments -/

theorem lddIt_libfoo_not_found :
    lddIt (strings.TrimSpace "\tlibfoo.so => not found\n".toList)
      = [("libfoo.so".toList, notFound)] := by
  decide

theorem lddIt_libfoo_resolved :
    lddIt (strings.TrimSpace "\tlibfoo.so => /tmp/magiclibs/libfoo.so (0x1)\n".toList)
      = [("libfoo.so".toList, "/tmp/magiclibs/libfoo.so".toList)] := by
  decide

/-- A loop whose destination keeps reporting `libfoo.so` as not found, and whose copy
for it succeeds, is still running after any number of passes. -/
theorem closure_running_of_stuck (w : World) (job : Nat) (src newPath : Str) (data : Bytes)
    (hldd : ∀ fs, w.lddDest fs newPath = some "\tlibfoo.so => not found\n".toList)
    (horder : ∀ p m, w.rangeOrder job p m = m)
    (hcat : w.cat src = some data)
    (htee : ∀ fs p b, w.teeOk fs p b = true)
    (n pass : Nat) (fs : Dir) (passes : List (List TransplantRecord)) :
    closure w job [("libfoo.so".toList, src)] newPath n pass fs passes = .running := by
  induction n generalizing pass fs passes with
  | zero => rfl
  | succ n ih =>
    rw [closure_succ w job _ newPath n pass fs passes _ (hldd fs), horder,
      lddIt_libfoo_not_found]
    have hget : mapGet [("libfoo.so".toList, src)] "libfoo.so".toList = some src := by
      simp [mapGet]
    simp only [fixing, if_true, hget,
      copyFromTo_of_cat w fs src dirName data hcat (htee _ _ _)]
    simp only [Bool.not_true, Bool.false_eq_true, if_false]
    exact ih _ _ _

/-- Instance of `closure_fails_when_source_lacks_soname`: in `libfooWorld` with an empty
source map the first pass ends in "Cannot find library on source" for `libfoo.so`. -/
theorem closure_fails_when_source_lacks_soname_witness :
    ∃ e, closure libfooWorld 0 [] "/tmp/magiclibs/tool".toList 1 0 [] [] = .failed e [] ∧
      ∃ k0, e = .cannotFindLibraryOnSource k0 :=
  let ⟨e, he, _, hk⟩ := closure_fails_when_source_lacks_soname libfooWorld 0 []
    "/tmp/magiclibs/tool".toList 0 0 [] [] "\tlibfoo.so => not found\n".toList
    "libfoo.so".toList rfl (List.Perm.refl _) (by decide) rfl
  let ⟨k0, hk0, _⟩ := hk (fun _ _ _ _ h => by simp [mapGet] at h)
  ⟨e, he, k0, hk0⟩

/-- Claim C4 as stated fails: in `writeFailsWorld` the destination marks `libb.so`
unresolved and the source's map lacks it, yet the run ends in "Cannot find binary",
because the copy of `liba.so`, visited first, fails; not in "Cannot find library on
source". -/
theorem closure_fails_with_copy_error_first :
    mapGet (lddIt (strings.TrimSpace "\tliba.so => not found\n\tlibb.so => not found\n".toList))
      "libb.so".toList = some notFound ∧
    mapGet (lddIt (strings.TrimSpace "\tliba.so => /usr/lib/liba.so (0x1)\n".toList))
      "libb.so".toList = none ∧
    closure writeFailsWorld 0
        (lddIt (strings.TrimSpace "\tliba.so => /usr/lib/liba.so (0x1)\n".toList))
        "/tmp/magiclibs/tool".toList 3 0 [("/tmp/magiclibs/tool".toList, [127, 69, 76, 70])] []
      = .failed .cannotFindBinary [] ∧
    processAll writeFailsWorld 3 0 [] ["tool".toList]
      = .failed .cannotFindBinary [[("/usr/bin/tool".toList, "/tmp/magiclibs/tool".toList)]] := by
  decide

/-- Claim C5 at the failing input: the source's own report lists `libfoo.so` as not
found, so the source's map holds `"not"` for it, and the run copies the path `"not"`
from the source. Without such a file the run ends in "Cannot find binary", not in
"Cannot find library on source"; with a file named `not` in the source the file is
copied to `/tmp/magiclibs/not` in every pass and the loop never ends. -/
theorem source_not_found_is_copied_as_path :
    lddIt (strings.TrimSpace "\tlibfoo.so => not found\n".toList)
      = [("libfoo.so".toList, notFound)] ∧
    processAll (sourceLacksWorld none) 3 0 [] ["tool".toList]
      = .failed .cannotFindBinary [[("/usr/bin/tool".toList, "/tmp/magiclibs/tool".toList)]] ∧
    processAll (sourceLacksWorld (some [0])) 2 0 [] ["tool".toList] = .running ∧
    closure (sourceLacksWorld (some [0])) 0 [("libfoo.so".toList, notFound)]
        "/tmp/magiclibs/tool".toList 1 0 [] [] = .running ∧
    copyFromTo (sourceLacksWorld (some [0])) [] notFound dirName
      = some ("/tmp/magiclibs/not".toList, [("/tmp/magiclibs/not".toList, [0])]) ∧
    ¬ ∃ n, closure (sourceLacksWorld (some [0])) 0 [("libfoo.so".toList, notFound)]
        "/tmp/magiclibs/tool".toList n 0 [("/tmp/magiclibs/tool".toList, [127, 69, 76, 70])] []
      ≠ .running := by
  refine ⟨by decide, by decide, by decide, by decide, by decide, ?_⟩
  rintro ⟨n, hn⟩
  exact hn (closure_running_of_stuck (sourceLacksWorld (some [0])) 0 notFound
    "/tmp/magiclibs/tool".toList [0] (fun _ => rfl) (fun _ _ => rfl) (by decide)
    (fun _ _ _ => rfl) n 0 _ _)

/-- Instance of `closure_terminates_under_progress`: the loop of `libfooWorld` for `tool`,
whose source map has the one entry for `libfoo.so`, ends within two passes. -/
theorem closure_terminates_under_progress_witness :
    closure libfooWorld 0 [("libfoo.so".toList, "/usr/lib/libfoo.so".toList)]
        "/tmp/magiclibs/tool".toList 2 0 [] [] =
      .done [("/tmp/magiclibs/libfoo.so".toList, [1, 2])]
        [[("/usr/lib/libfoo.so".toList, "/tmp/magiclibs/libfoo.so".toList)], []] ∧
    ∀ n, closure libfooWorld 0 [("libfoo.so".toList, "/usr/lib/libfoo.so".toList)]
        "/tmp/magiclibs/tool".toList (1 + 1 + n) 0 [] [] =
      closure libfooWorld 0 [("libfoo.so".toList, "/usr/lib/libfoo.so".toList)]
        "/tmp/magiclibs/tool".toList (1 + 1) 0 [] [] :=
  ⟨by decide,
    (closure_terminates_under_progress libfooWorld 0
      [("libfoo.so".toList, "/usr/lib/libfoo.so".toList)] "/tmp/magiclibs/tool".toList 0 [] []
      (by
        intro pass fs0 raw fs1 copies hraw hfix
        have hjoin : path.Join [dirName, path.Base "/usr/lib/libfoo.so".toList]
            = "/tmp/magiclibs/libfoo.so".toList := by decide
        have horder : ∀ m, libfooWorld.rangeOrder 0 pass m = m := fun _ => rfl
        rw [horder] at hfix
        cases hfile : mapGet fs0 "/tmp/magiclibs/libfoo.so".toList with
        | some b =>
          have hraw' : libfooWorld.lddDest fs0 "/tmp/magiclibs/tool".toList
              = some "\tlibfoo.so => /tmp/magiclibs/libfoo.so (0x1)\n".toList := by
            simp only [libfooWorld, hfile, Option.isSome_some, if_true]
          rw [hraw'] at hraw
          rw [← Option.some.inj hraw, lddIt_libfoo_resolved,
            fixing_clean _ _ _ _ _ _ (by decide)] at hfix
          simp at hfix
        | none =>
          have hraw' : libfooWorld.lddDest fs0 "/tmp/magiclibs/tool".toList
              = some "\tlibfoo.so => not found\n".toList := by
            simp only [libfooWorld, hfile, Option.isSome_none, Bool.false_eq_true, if_false]
          rw [hraw'] at hraw
          rw [← Option.some.inj hraw, lddIt_libfoo_not_found] at hfix
          have hget : mapGet [("libfoo.so".toList, "/usr/lib/libfoo.so".toList)]
              "libfoo.so".toList = some "/usr/lib/libfoo.so".toList := by decide
          simp only [fixing, if_true, hget,
            copyFromTo_of_cat libfooWorld fs0 "/usr/lib/libfoo.so".toList dirName [1, 2]
              (by decide) rfl, hjoin, Except.ok.injEq, Prod.mk.injEq] at hfix
          refine ⟨"/tmp/magiclibs/libfoo.so".toList, ?_, ?_⟩
          · rw [← hfix.1]
            exact (mem_mapKeys_mapSet fs0 _ _ _).mpr (Or.inl rfl)
          · exact (mapGet_eq_none_iff fs0 _).mp hfile)).2⟩

/-- Claim C6 as stated fails: in `stuckWorld` the destination's report is a function of
the library directory (a constant one) and every copy succeeds, the source's map has one
entry, and the loop is still running after any number of passes; and in `libfooWorld`,
where the loop does end, it takes two passes for a source map of one entry. -/
theorem closure_runs_past_source_map_size :
    lddIt (strings.TrimSpace "\tlibfoo.so => /usr/lib/libfoo.so (0x1)\n".toList)
      = [("libfoo.so".toList, "/usr/lib/libfoo.so".toList)] ∧
    (¬ ∃ n, closure stuckWorld 0 [("libfoo.so".toList, "/usr/lib/libfoo.so".toList)]
        "/tmp/magiclibs/tool".toList n 0 [("/tmp/magiclibs/tool".toList, [127, 69, 76, 70])] []
      ≠ .running) ∧
    processAll stuckWorld 1 0 [] ["tool".toList] = .running ∧
    closure libfooWorld 0 [("libfoo.so".toList, "/usr/lib/libfoo.so".toList)]
        "/tmp/magiclibs/tool".toList 1 0 [("/tmp/magiclibs/tool".toList, [127, 69, 76, 70])] []
      = .running ∧
    closure libfooWorld 0 [("libfoo.so".toList, "/usr/lib/libfoo.so".toList)]
        "/tmp/magiclibs/tool".toList 2 0 [("/tmp/magiclibs/tool".toList, [127, 69, 76, 70])] []
      = .done
          [("/tmp/magiclibs/tool".toList, [127, 69, 76, 70]),
            ("/tmp/magiclibs/libfoo.so".toList, [1, 2])]
          [[("/usr/lib/libfoo.so".toList, "/tmp/magiclibs/libfoo.so".toList)], []] := by
  refine ⟨by decide, ?_, by decide, by decide, by decide⟩
  rintro ⟨n, hn⟩
  exact hn (closure_running_of_stuck stuckWorld 0 "/usr/lib/libfoo.so".toList
    "/tmp/magiclibs/tool".toList [1, 2] (fun _ => rfl) (fun _ _ => rfl) (by decide)
    (fun _ _ _ => rfl) n 0 _ _)

/-- Instance of `closure_done_iff_clean_pass`: in `libfooWorld`, with `libfoo.so` in the
library directory, the pass is clean and the loop ends in DONE at once; with the
directory empty the first pass does not end in DONE. -/
theorem closure_done_iff_clean_pass_witness :
    closure libfooWorld 0 [("libfoo.so".toList, "/usr/lib/libfoo.so".toList)]
        "/tmp/magiclibs/tool".toList 1 0 [("/tmp/magiclibs/libfoo.so".toList, [1, 2])] []
      = .done [("/tmp/magiclibs/libfoo.so".toList, [1, 2])] ([] ++ [[]]) ∧
    ∀ fs' ps, closure libfooWorld 0 [("libfoo.so".toList, "/usr/lib/libfoo.so".toList)]
        "/tmp/magiclibs/tool".toList 1 0 [] [] ≠ .done fs' ps :=
  have h := closure_done_iff_clean_pass libfooWorld 0
    [("libfoo.so".toList, "/usr/lib/libfoo.so".toList)] "/tmp/magiclibs/tool".toList
    (fun _ _ m => List.Perm.refl m)
  ⟨h.2.1 0 0 [("/tmp/magiclibs/libfoo.so".toList, [1, 2])] []
      "\tlibfoo.so => /tmp/magiclibs/libfoo.so (0x1)\n".toList rfl (by decide),
    h.2.2 0 [] [] "\tlibfoo.so => not found\n".toList rfl (by decide)⟩

/-- Instance of `fixing_copies_one_per_unresolved`: in `libfooWorld` the report
`"libfoo.so => not found"` causes exactly one copy, of `/usr/lib/libfoo.so`. -/
theorem fixing_copies_one_per_unresolved_witness :
    ∃ fs' copies,
      fixing libfooWorld [("libfoo.so".toList, "/usr/lib/libfoo.so".toList)]
        [("libfoo.so".toList, notFound)] [] [] false = .ok (fs', copies, !copies.isEmpty) ∧
      ∃ p, mapGet [("libfoo.so".toList, "/usr/lib/libfoo.so".toList)] "libfoo.so".toList
          = some p ∧
        copies = [(p, path.Join [dirName, path.Base p])] :=
  let ⟨fs', copies, h, _, _, _, hone⟩ := fixing_copies_one_per_unresolved libfooWorld
    [("libfoo.so".toList, "/usr/lib/libfoo.so".toList)] "libfoo.so => not found".toList
    [("libfoo.so".toList, notFound)] []
    (by decide)
    (by
      intro k hk
      have hmap : lddIt "libfoo.so => not found".toList
          = [("libfoo.so".toList, notFound)] := by decide
      rw [hmap] at hk
      by_cases hkey : "libfoo.so".toList = k
      · subst hkey
        rfl
      · simp only [mapGet, hkey, if_false] at hk
        cases hk)
    (by
      intro k p fs0 _ hp
      have hp' : p = "/usr/lib/libfoo.so".toList := by
        by_cases hkey : "libfoo.so".toList = k
        · simp only [mapGet, hkey, if_true, Option.some.injEq] at hp
          exact hp.symm
        · simp only [mapGet, hkey, if_false] at hp
          cases hp
      subst hp'
      rw [copyFromTo_of_cat libfooWorld fs0 _ dirName [1, 2] (by decide) rfl]
      rfl)
  ⟨fs', copies, h, hone rfl⟩

end Grablibs
